import Mathlib

/-!
Verification of the espn_sidepots side-pot engine.

This file gives a shallow embedding, in Lean 4, of the core computational
functions of the repository (`app/scoring.py`, `app/espn_lineup.py`,
`app/pir.py`, `app/survivor.py`, `app/main.py` / `app/efficiency.py`) and
proves or refutes the frozen specification claims about them.

Modelling conventions:
* Python floats are modelled as rationals (`ℚ`); `round(x, 2)` is modelled by
  `round2` (round to nearest at two decimals).
* Python dicts keyed by strings or ints are modelled by association lists or
  by total functions, as noted at each definition.
* Python sets of used player ids / bitmasks are modelled by lists of indices
  (only membership is ever consulted).
* Roster entries (Python dicts / duck-typed player objects) are modelled by
  the record `Player` holding exactly the fields the embedded code reads.
-/

namespace Sidepots

/-! ## Generic list/fold helpers -/

theorem le_foldl_max {α : Type} [LinearOrder α] (l : List α) (init : α) :
    init ≤ l.foldl max init := by
  induction l generalizing init with
  | nil => exact le_refl _
  | cons x xs ih => exact le_trans (le_max_left _ _) (ih _)

theorem mem_le_foldl_max {α : Type} [LinearOrder α] {l : List α} {x : α}
    (h : x ∈ l) (init : α) : x ≤ l.foldl max init := by
  induction l generalizing init with
  | nil => cases h
  | cons y ys ih =>
    rcases List.mem_cons.mp h with rfl | h'
    · exact le_trans (le_max_right init x) (le_foldl_max ys _)
    · exact ih h' _

theorem foldl_max_choice {α : Type} [LinearOrder α] (l : List α) (init : α) :
    l.foldl max init = init ∨ l.foldl max init ∈ l := by
  induction l generalizing init with
  | nil => exact Or.inl rfl
  | cons y ys ih =>
    rcases ih (max init y) with h | h
    · rcases max_choice init y with h' | h'
      · exact Or.inl (by rw [List.foldl_cons, h, h'])
      · exact Or.inr (by rw [List.foldl_cons, h, h']; exact List.mem_cons_self y ys)
    · exact Or.inr (List.mem_cons_of_mem _ (by rw [List.foldl_cons]; exact h))

theorem mem_zip_right {α β : Type} :
    ∀ {l₁ : List α} {l₂ : List β}, l₁.length = l₂.length → ∀ {b : β}, b ∈ l₂ →
      ∃ a, (a, b) ∈ l₁.zip l₂ := by
  intro l₁
  induction l₁ with
  | nil =>
    intro l₂ h b hb
    cases l₂ with
    | nil => cases hb
    | cons x xs => cases h
  | cons x xs ih =>
    intro l₂ h b hb
    cases l₂ with
    | nil => cases hb
    | cons y ys =>
      rcases List.mem_cons.mp hb with rfl | hb'
      · exact ⟨x, List.mem_cons_self _ _⟩
      · obtain ⟨a, ha⟩ := ih (Nat.succ_injective h) hb'
        exact ⟨a, List.mem_cons_of_mem _ ha⟩

/-! ## String helpers mirroring the Python string operations used by the code

Lean 4.14's built-in `String.splitOn` / `String.trim` / `String.toUpper` do
not reduce inside the kernel, so we re-implement the few Python string
operations the code uses directly over the character list of the string.
-/

/-- `s.split("/")` on the character list: splitting at every `'/'`
(Python's `str.split` with a one-character separator). -/
def splitSlashAux : List Char → List (List Char)
  | [] => [[]]
  | c :: rest =>
    let groups := splitSlashAux rest
    if c = '/' then [] :: groups
    else
      match groups with
      | [] => [[c]]
      | g :: gs => (c :: g) :: gs

/-- Python `slot.split("/")`. -/
def pySplitSlash (s : String) : List String :=
  (splitSlashAux s.data).map String.mk

/-- Python `str.strip()` (whitespace at both ends). -/
def pyStrip (s : String) : String :=
  String.mk (((s.data.dropWhile Char.isWhitespace).reverse.dropWhile
    Char.isWhitespace).reverse)

/-- Python `str.upper()` (character-wise upper-casing). -/
def pyUpper (s : String) : String :=
  String.mk (s.data.map Char.toUpper)

/-- Python `needle in haystack` (substring containment) on character lists. -/
def listIsSub (needle : List Char) : List Char → Bool
  | [] => needle.isEmpty
  | c :: rest => List.isPrefixOf needle (c :: rest) || listIsSub needle rest

/-- Python `needle in haystack` for strings. -/
def pyContains (haystack needle : String) : Bool :=
  listIsSub needle.data haystack.data

/-! ## `app/scoring.py` — the optimal lineup solver -/

/-- A roster entry.  Python represents these as dicts (or duck-typed player
objects); the embedded code only ever reads the fields below, so the record
holds exactly those.  `points` is `float(p.get("points") or 0.0)` and
`eligible_slots` is `list(p.get("eligible_slots") or [])` of the source. -/
structure Player where
  name : String
  points : ℚ
  slot_position : String
  position : String
  eligible_slots : List String

instance : Inhabited Player := ⟨⟨"", 0, "", "", []⟩⟩

/-- `scoring._slot_allows(slot, eligible_slots)`. -/
def slot_allows (slot : String) (eligible_slots : List String) : Bool :=
  if slot ∈ eligible_slots then true
  else if pyContains slot "/" then
    -- allowed = set(part.strip() for part in slot.split("/") if part)
    ((pySplitSlash slot).filter (fun part => part ≠ "")).any
      (fun part => decide (pyStrip part ∈ eligible_slots))
  else if slot = "OP" then
    (["QB", "RB", "WR", "TE", "TQB"]).any (fun pos => decide (pos ∈ eligible_slots))
  else if slot = "ER" then
    (["RB", "WR", "TE"]).any (fun pos => decide (pos ∈ eligible_slots))
  else false

/-- `scoring._expand_lineup_slots(slot_counts)`: drop bench-like slots, repeat
every other label `count` times.  Python dicts preserve insertion order, so
`slot_counts` is an association list; a non-positive `int(count)` repeats the
label zero times, exactly like Python's `[slot] * count`. -/
def expand_lineup_slots (slot_counts : List (String × ℤ)) : List String :=
  slot_counts.foldr (fun sc acc =>
    if sc.1 ∈ (["BE", "BN", "IR", "TAXI"] : List String) then acc
    else List.replicate sc.2.toNat sc.1 ++ acc) []

/-- Model of Python `float(round(x, 2))`: round to the nearest multiple of
`1/100` (Python rounds floats half-to-even; all values this code rounds in
the claims are exact at two decimals, so the tie-breaking mode is
immaterial and we use `round`). -/
def round2 (x : ℚ) : ℚ := (round (x * 100) : ℤ) / 100

/-- The memoized search `_best(slot_idx, used_mask)` inside
`scoring._optimal_lineup_score`, with the slot suffix playing the role of
`slot_idx` and the list of used player indices playing the role of the
bitmask (`lru_cache` memoization only affects running time, not values).
For each slot the search takes the maximum of leaving the slot empty and of
assigning any unused, eligible player to it. -/
def bestLineup (points : List ℚ) (eligibility : List (List String)) :
    List String → List ℕ → ℚ
  | [], _ => 0
  | slot :: rest, used =>
    ((List.range points.length).filterMap fun i =>
      if i ∉ used ∧ slot_allows slot (eligibility.getD i []) = true then
        some (points.getD i 0 + bestLineup points eligibility rest (i :: used))
      else none).foldl max (bestLineup points eligibility rest used)

/-- `scoring._optimal_lineup_score(roster, slots)`.  (The Python guard
`[player for player in roster if player]` drops falsy dicts; record-typed
roster entries are all truthy, so the filter is the identity here.) -/
def optimal_lineup_score (roster : List Player) (slots : List String) : ℚ :=
  if roster.isEmpty || slots.isEmpty then 0
  else
    round2 (bestLineup (roster.map Player.points) (roster.map Player.eligible_slots)
      slots [])

-- sanity checks against hand-computed values
example : slot_allows "RB/WR/TE" ["WR"] = true := by decide
example : slot_allows "RB/WR/TE" ["K"] = false := by decide
example : slot_allows "OP" ["QB"] = true := by decide
example : slot_allows "QB" ["QB"] = true := by decide
example : expand_lineup_slots [("QB", 1), ("RB", 2), ("BE", 7)] = ["QB", "RB", "RB"] := by decide

/-! ## Specification of the solver: one-to-one partial assignments

An assignment gives each slot (positionally) either no player or the index of
a player; it is valid when every assigned index denotes an existing player
that is not pre-used, each filled slot holds a player allowed there by
`_slot_allows`, and no player occupies two slots.  Slots may stay empty and
players may stay unassigned. -/

/-- Total points collected by a partial assignment. -/
def sumAssign (points : List ℚ) (a : List (Option ℕ)) : ℚ :=
  ((a.filterMap id).map (fun i => points.getD i 0)).sum

/-- Validity of a partial assignment of players to slots, avoiding the
already-`used` player indices. -/
def ValidAssign (points : List ℚ) (eligibility : List (List String))
    (slots : List String) (used : List ℕ) (a : List (Option ℕ)) : Prop :=
  a.length = slots.length ∧
  (∀ p ∈ slots.zip a, ∀ i, p.2 = some i →
    i < points.length ∧ i ∉ used ∧ slot_allows p.1 (eligibility.getD i []) = true) ∧
  (a.filterMap id).Nodup

theorem validAssign_assigned {points : List ℚ} {elig : List (List String)}
    {slots : List String} {used : List ℕ} {a : List (Option ℕ)}
    (h : ValidAssign points elig slots used a) :
    ∀ j ∈ a.filterMap id, j < points.length ∧ j ∉ used := by
  intro j hj
  obtain ⟨o, ho, hoj⟩ := List.mem_filterMap.mp hj
  obtain ⟨s, hs⟩ := mem_zip_right h.1.symm ho
  exact ⟨(h.2.1 (s, o) hs j hoj).1, (h.2.1 (s, o) hs j hoj).2.1⟩

theorem skip_le_bestLineup_cons (points : List ℚ) (elig : List (List String))
    (slot : String) (rest : List String) (used : List ℕ) :
    bestLineup points elig rest used ≤ bestLineup points elig (slot :: rest) used := by
  rw [bestLineup]
  exact le_foldl_max _ _

theorem cand_le_bestLineup_cons (points : List ℚ) (elig : List (List String))
    (slot : String) (rest : List String) (used : List ℕ) {i : ℕ}
    (hi : i < points.length) (hiu : i ∉ used)
    (hall : slot_allows slot (elig.getD i []) = true) :
    points.getD i 0 + bestLineup points elig rest (i :: used) ≤
      bestLineup points elig (slot :: rest) used := by
  rw [bestLineup]
  refine mem_le_foldl_max (List.mem_filterMap.mpr ⟨i, List.mem_range.mpr hi, ?_⟩) _
  rw [if_pos ⟨hiu, hall⟩]

theorem sumAssign_le_bestLineup (points : List ℚ) (elig : List (List String)) :
    ∀ (slots : List String) (used : List ℕ) (a : List (Option ℕ)),
      ValidAssign points elig slots used a →
      sumAssign points a ≤ bestLineup points elig slots used := by
  intro slots
  induction slots with
  | nil =>
    intro used a h
    have ha : a = [] := List.length_eq_zero.mp (by simpa using h.1)
    subst ha
    simp [sumAssign, bestLineup]
  | cons slot rest ih =>
    intro used a h
    obtain ⟨hlen, hcond, hnd⟩ := h
    cases a with
    | nil => exact absurd hlen (by simp)
    | cons o a' =>
      have hcond' : ∀ p ∈ rest.zip a', ∀ i, p.2 = some i →
          i < points.length ∧ i ∉ used ∧ slot_allows p.1 (elig.getD i []) = true :=
        fun p hp => hcond p (by rw [List.zip_cons_cons]; exact List.mem_cons_of_mem _ hp)
      cases o with
      | none =>
        have hvalid' : ValidAssign points elig rest used a' :=
          ⟨by simpa using hlen, hcond', by simpa using hnd⟩
        have h1 : sumAssign points (none :: a') = sumAssign points a' := by
          simp [sumAssign]
        rw [h1]
        exact le_trans (ih used a' hvalid')
          (skip_le_bestLineup_cons points elig slot rest used)
      | some i =>
        have hhead := hcond (slot, some i)
          (by rw [List.zip_cons_cons]; exact List.mem_cons_self _ _) i rfl
        have hndi : i ∉ a'.filterMap id ∧ (a'.filterMap id).Nodup := by
          simpa using hnd
        have hvalid' : ValidAssign points elig rest (i :: used) a' := by
          refine ⟨by simpa using hlen, ?_, hndi.2⟩
          intro p hp j hj
          obtain ⟨hjlt, hju, hja⟩ := hcond' p hp j hj
          have hjmem : j ∈ a'.filterMap id :=
            List.mem_filterMap.mpr ⟨p.2, (List.of_mem_zip hp).2, hj⟩
          have hji : j ≠ i := fun e => hndi.1 (e ▸ hjmem)
          exact ⟨hjlt, by simp [List.mem_cons, hji, hju], hja⟩
        have h1 : sumAssign points (some i :: a') =
            points.getD i 0 + sumAssign points a' := by
          simp [sumAssign]
        rw [h1]
        exact le_trans (add_le_add_left (ih (i :: used) a' hvalid') _)
          (cand_le_bestLineup_cons points elig slot rest used hhead.1 hhead.2.1 hhead.2.2)

theorem bestLineup_attained (points : List ℚ) (elig : List (List String)) :
    ∀ (slots : List String) (used : List ℕ),
      ∃ a, ValidAssign points elig slots used a ∧
        sumAssign points a = bestLineup points elig slots used := by
  intro slots
  induction slots with
  | nil =>
    intro used
    exact ⟨[], ⟨rfl, by simp, List.nodup_nil⟩, by simp [sumAssign, bestLineup]⟩
  | cons slot rest ih =>
    intro used
    rcases foldl_max_choice
        ((List.range points.length).filterMap fun i =>
          if i ∉ used ∧ slot_allows slot (elig.getD i []) = true then
            some (points.getD i 0 + bestLineup points elig rest (i :: used))
          else none)
        (bestLineup points elig rest used) with hc | hc
    · obtain ⟨a', ⟨hlen, hcond, hnd⟩, hsum⟩ := ih used
      refine ⟨none :: a', ⟨by simpa using hlen, ?_, by simpa using hnd⟩, ?_⟩
      · intro p hp j hj
        rw [List.zip_cons_cons] at hp
        rcases List.mem_cons.mp hp with rfl | hp'
        · cases hj
        · exact hcond p hp' j hj
      · rw [bestLineup, hc]
        simpa [sumAssign] using hsum
    · obtain ⟨i, hir, hif⟩ := List.mem_filterMap.mp hc
      by_cases hcnd : i ∉ used ∧ slot_allows slot (elig.getD i []) = true
      · rw [if_pos hcnd] at hif
        have hv := Option.some.inj hif
        obtain ⟨a', hvalid', hsum⟩ := ih (i :: used)
        have hassigned := validAssign_assigned hvalid'
        obtain ⟨hlen, hcond, hnd⟩ := hvalid'
        refine ⟨some i :: a', ⟨by simpa using hlen, ?_, ?_⟩, ?_⟩
        · intro p hp j hj
          rw [List.zip_cons_cons] at hp
          rcases List.mem_cons.mp hp with rfl | hp'
          · cases hj
            exact ⟨List.mem_range.mp hir, hcnd.1, hcnd.2⟩
          · obtain ⟨hjlt, hju, hja⟩ := hcond p hp' j hj
            exact ⟨hjlt, fun hju' => hju (List.mem_cons_of_mem _ hju'), hja⟩
        · have hi : i ∉ a'.filterMap id := fun hmem =>
            (hassigned i hmem).2 (List.mem_cons_self _ _)
          simpa [hi] using hnd
        · have h1 : sumAssign points (some i :: a') =
              points.getD i 0 + sumAssign points a' := by
            simp [sumAssign]
          rw [bestLineup, ← hv, h1, hsum]
      · rw [if_neg hcnd] at hif
        cases hif

theorem bestLineup_nil_points (elig : List (List String)) :
    ∀ (slots : List String) (used : List ℕ), bestLineup [] elig slots used = 0 := by
  intro slots
  induction slots with
  | nil => intro used; rfl
  | cons s rest ih => intro used; simp [bestLineup, ih]

theorem round2_zero : round2 0 = 0 := by
  simp [round2]

/-- The 9-player example roster of the spec (points
[20,25,20,18,19,18,16,30,5] across QB/RB/RB/RB/WR/WR/WR/TE/TE), taken from
the repository's own solver test. -/
def exampleRoster : List Player :=
  [⟨"QB1", 20, "QB", "QB", ["QB", "OP"]⟩,
   ⟨"RB1", 25, "RB", "RB", ["RB", "RB/WR/TE", "OP"]⟩,
   ⟨"RB2", 20, "RB", "RB", ["RB", "RB/WR/TE", "OP"]⟩,
   ⟨"RB3", 18, "RB", "RB", ["RB", "RB/WR/TE", "OP"]⟩,
   ⟨"WR1", 19, "WR", "WR", ["WR", "RB/WR/TE", "OP"]⟩,
   ⟨"WR2", 18, "WR", "WR", ["WR", "RB/WR/TE", "OP"]⟩,
   ⟨"WR3", 16, "WR", "WR", ["WR", "RB/WR/TE", "OP"]⟩,
   ⟨"TE1", 30, "TE", "TE", ["TE", "RB/WR/TE", "OP"]⟩,
   ⟨"TE2", 5, "TE", "TE", ["TE", "RB/WR/TE", "OP"]⟩]

/-- The slot requirement `{QB:1, RB:2, WR:2, TE:1, "RB/WR/TE":1}` expanded in
dict insertion order. -/
def exampleSlots : List String :=
  expand_lineup_slots [("QB", 1), ("RB", 2), ("WR", 2), ("TE", 1), ("RB/WR/TE", 1)]

example : exampleSlots = ["QB", "RB", "RB", "WR", "WR", "TE", "RB/WR/TE"] := by decide

set_option maxRecDepth 10000 in
/-- C1: `_optimal_lineup_score` returns, rounded to two decimals, the maximum
achievable sum of points over all one-to-one partial assignments of players
to slots (each filled slot holds a distinct player allowed by `_slot_allows`,
slots may remain empty, players may remain unassigned); in particular, on the
9-player example roster with slot requirement
`{QB:1, RB:2, WR:2, TE:1, RB/WR/TE:1}` it returns 150.0. -/
theorem optimal_lineup_score_is_rounded_max :
    (∀ (roster : List Player) (slots : List String),
      IsGreatest
        {v : ℚ | ∃ a, ValidAssign (roster.map Player.points)
            (roster.map Player.eligible_slots) slots [] a ∧
          sumAssign (roster.map Player.points) a = v}
        (bestLineup (roster.map Player.points) (roster.map Player.eligible_slots)
          slots [])
      ∧ optimal_lineup_score roster slots =
          round2 (bestLineup (roster.map Player.points)
            (roster.map Player.eligible_slots) slots []))
    ∧ optimal_lineup_score exampleRoster exampleSlots = 150 := by
  constructor
  · intro roster slots
    constructor
    · constructor
      · exact bestLineup_attained _ _ slots []
      · rintro v ⟨a, hva, rfl⟩
        exact sumAssign_le_bestLineup _ _ slots [] a hva
    · unfold optimal_lineup_score
      by_cases hr : roster.isEmpty
      · have : roster = [] := List.isEmpty_iff.mp hr
        subst this
        simp [bestLineup_nil_points, round2_zero]
      · by_cases hs : slots.isEmpty
        · have : slots = [] := List.isEmpty_iff.mp hs
          subst this
          simp [hr, bestLineup, round2_zero]
        · simp [hr, hs]
  · with_unfolding_all decide

/-! ## `scoring.compute_optimal_points` and the degenerate-input claim -/

/-- The league-rules structure; the embedded code only reads
`league_rules.get("slot_counts")`.  `dict(... or {})` is the identity on the
association list. -/
structure LeagueRules where
  slot_counts : List (String × ℤ)

/-- `scoring.compute_optimal_points(roster, league_rules, *, actual_points=0.0)`.
The Python keyword default for `actual_points` is `0.0`; here the argument is
always passed explicitly. -/
def compute_optimal_points (roster : List Player) (league_rules : LeagueRules)
    (actual_points : ℚ) : ℚ :=
  let slots := expand_lineup_slots league_rules.slot_counts
  if slots.isEmpty then actual_points
  else optimal_lineup_score roster slots

/-- C9 counterexample: `compute_optimal_points` with slot counts that expand
to no slots returns `float(actual_points)`, not 0 — at `actual_points = 1` it
returns 1. -/
theorem compute_optimal_points_empty_slots_counterexample :
    compute_optimal_points [] ⟨[]⟩ 1 = 1 ∧ (1 : ℚ) ≠ 0 :=
  ⟨rfl, by norm_num⟩

/-- C9 (amended): `_optimal_lineup_score` returns 0 on an empty roster or an
empty slot list; `compute_optimal_points` returns its `actual_points`
argument (default 0.0) when the slot counts expand to no slots, and hence 0
under the default; with a nonempty expansion it returns
`_optimal_lineup_score`, so an empty roster again yields 0. -/
theorem degenerate_inputs_zero :
    (∀ slots : List String, optimal_lineup_score [] slots = 0) ∧
    (∀ roster : List Player, optimal_lineup_score roster [] = 0) ∧
    (∀ (roster : List Player) (rules : LeagueRules),
      (expand_lineup_slots rules.slot_counts).isEmpty = true →
      ∀ ap : ℚ, compute_optimal_points roster rules ap = ap) ∧
    (∀ rules : LeagueRules, compute_optimal_points [] rules 0 = 0) := by
  refine ⟨fun slots => rfl, ?_, ?_, ?_⟩
  · intro roster
    simp [optimal_lineup_score]
  · intro roster rules he ap
    simp [compute_optimal_points, he]
  · intro rules
    by_cases he : (expand_lineup_slots rules.slot_counts).isEmpty
    · simp [compute_optimal_points, he]
    · simp [compute_optimal_points, he, optimal_lineup_score]

/-- Witness for the amended C9 theorem at concrete inputs. -/
theorem degenerate_inputs_zero_witness :
    compute_optimal_points [⟨"A", 3, "RB", "RB", ["RB"]⟩] ⟨[("BE", 5)]⟩ (7 / 2) = 7 / 2 :=
  degenerate_inputs_zero.2.2.1 [⟨"A", 3, "RB", "RB", ["RB"]⟩] ⟨[("BE", 5)]⟩
    (by decide) (7 / 2)

/-! ## `espn_lineup.sum_points_for_slots` and the actual-vs-optimal claim -/

/-- `espn_lineup.STARTER_EXCLUDES`. -/
def STARTER_EXCLUDES : List String := ["BE", "BN", "BENCH", "IR", "RES", "INJ"]

/-- `espn_lineup.sum_points_for_slots(players, include_labels)`: sum the
points of every player whose upper-cased `slot_position` lies in the
upper-cased label set.  (The Python set only ever serves membership tests,
so the un-deduplicated list of labels is equivalent.) -/
def sum_points_for_slots (players : List Player) (include_labels : List String) : ℚ :=
  let labels := include_labels.map pyUpper
  if labels.isEmpty then 0
  else ((players.filter (fun p => pyUpper p.slot_position ∈ labels)).map
    Player.points).sum

/-- The `starter_labels` set built in `espn_client.fetch_week_scores`: the
upper-cased `slot_position`s that are nonempty and not bench-like. -/
def starterLabels (players : List Player) : List String :=
  (players.map (fun p => pyUpper p.slot_position)).filter
    (fun u => u ≠ "" ∧ u ∉ STARTER_EXCLUDES)

/-- `actual_points = sum_points_for_slots(players, starter_labels)` as
computed in `espn_client.fetch_week_scores`. -/
def actual_points (players : List Player) : ℚ :=
  sum_points_for_slots players (starterLabels players)

/-- The starters: the players whose points `sum_points_for_slots` counts when
given the `starter_labels` set. -/
def starters (players : List Player) : List Player :=
  players.filter (fun p => pyUpper p.slot_position ∈ (starterLabels players).map pyUpper)

theorem actual_points_eq_sum_starters (players : List Player) :
    actual_points players = ((starters players).map Player.points).sum := by
  unfold actual_points sum_points_for_slots starters
  by_cases he : ((starterLabels players).map pyUpper).isEmpty
  · have : (starterLabels players).map pyUpper = [] := List.isEmpty_iff.mp he
    simp [he, this]
  · simp [he]

theorem getD_map_of_lt {α β : Type} (f : α → β) {l : List α} {i : ℕ}
    (h : i < l.length) (d : α) (d' : β) :
    (l.map f).getD i d' = f (l.getD i d) := by
  rw [List.getD_eq_getElem?_getD, List.getD_eq_getElem?_getD, List.getElem?_map,
    List.getElem?_eq_getElem h]
  rfl

theorem filter_index_eq {α : Type} (d : α) (q : α → Bool) :
    ∀ l : List α,
      (((List.range l.length).filter (fun i => q (l.getD i d))).map
        (fun i => l.getD i d)) = l.filter q := by
  intro l
  induction l with
  | nil => rfl
  | cons x xs ih =>
    have hcomp : ((fun i => q ((x :: xs).getD i d)) ∘ Nat.succ)
        = fun i => q (xs.getD i d) := by
      funext i; rfl
    have hgd : ((fun i => (x :: xs).getD i d) ∘ Nat.succ) = fun i => xs.getD i d := by
      funext i; rfl
    rw [List.length_cons, List.range_succ_eq_map, List.filter_cons]
    by_cases hx : q x
    · simp only [List.getD_cons_zero, hx, if_pos, List.map_cons, List.filter_map,
        hcomp, List.map_map, hgd, ih, List.filter_cons]
    · simp only [List.getD_cons_zero, hx, Bool.false_eq_true, if_neg,
        not_false_iff, List.filter_map, hcomp, List.map_map, hgd, ih,
        List.filter_cons]

/-- Key bound: if a list of distinct, in-range, unused player indices can be
matched (as a multiset, via their slot labels) into the slot list, each
allowed in its own slot, then the total of their points is at most the
search optimum. -/
theorem sum_slotted_le_bestLineup (points : List ℚ) (elig : List (List String))
    (slotlab : List String) :
    ∀ (slots : List String) (used : List ℕ) (P : List ℕ),
      P.Nodup →
      (∀ i ∈ P, i < points.length ∧ i ∉ used) →
      ((P.map (fun i => slotlab.getD i "")) : Multiset String) ≤
        (slots : Multiset String) →
      (∀ i ∈ P, slot_allows (slotlab.getD i "") (elig.getD i []) = true) →
      (P.map (fun i => points.getD i 0)).sum ≤ bestLineup points elig slots used := by
  intro slots
  induction slots with
  | nil =>
    intro used P hnd hbound hsub hallow
    have h0 : P.map (fun i => slotlab.getD i "") = [] :=
      (Multiset.coe_eq_zero _).mp (Multiset.le_zero.mp (by simpa using hsub))
    have hP : P = [] := List.map_eq_nil_iff.mp h0
    subst hP
    simp [bestLineup]
  | cons slot rest ih =>
    intro used P hnd hbound hsub hallow
    by_cases hex : ∃ i ∈ P, slotlab.getD i "" = slot
    · obtain ⟨i, hiP, hislot⟩ := hex
      have hperm : List.Perm P (i :: P.erase i) := List.perm_cons_erase hiP
      have hsum : (P.map fun j => points.getD j 0).sum
          = points.getD i 0 + ((P.erase i).map fun j => points.getD j 0).sum := by
        have := (hperm.map fun j => points.getD j 0).sum_eq
        simpa using this
      have hsub' : (((P.erase i).map fun j => slotlab.getD j "") : Multiset String)
          ≤ (rest : Multiset String) := by
        have hcoe : ((P.map fun j => slotlab.getD j "") : Multiset String)
            = slot ::ₘ (((P.erase i).map fun j => slotlab.getD j "") : Multiset String) := by
          have hmc : (i :: P.erase i).map (fun j => slotlab.getD j "")
              = slot :: (P.erase i).map (fun j => slotlab.getD j "") := by
            simp only [List.map_cons]
            rw [hislot]
          rw [Multiset.coe_eq_coe.mpr (hperm.map fun j => slotlab.getD j ""), hmc]
          rfl
        refine (Multiset.cons_le_cons_iff slot).mp ?_
        rw [← hcoe]
        simpa using hsub
      have hih := ih (i :: used) (P.erase i) (hnd.erase i)
        (fun j hj => ⟨(hbound j (List.mem_of_mem_erase hj)).1, by
          have hji : j ≠ i := (hnd.mem_erase_iff.mp hj).1
          have hju := (hbound j (List.mem_of_mem_erase hj)).2
          simp [List.mem_cons, hji, hju]⟩)
        hsub'
        (fun j hj => hallow j (List.mem_of_mem_erase hj))
      have hall : slot_allows slot (elig.getD i []) = true := by
        rw [← hislot]; exact hallow i hiP
      rw [hsum]
      exact le_trans (add_le_add_left hih _)
        (cand_le_bestLineup_cons points elig slot rest used
          (hbound i hiP).1 (hbound i hiP).2 hall)
    · have hnotmem : slot ∉ P.map fun j => slotlab.getD j "" := by
        intro hmem
        obtain ⟨j, hjP, hja⟩ := List.mem_map.mp hmem
        exact hex ⟨j, hjP, hja⟩
      have hsub' : ((P.map fun j => slotlab.getD j "") : Multiset String)
          ≤ (rest : Multiset String) := by
        rw [Multiset.le_iff_count]
        intro a
        by_cases ha : a = slot
        · subst ha
          have h0 : List.count a (P.map fun j => slotlab.getD j "") = 0 :=
            List.count_eq_zero.mpr hnotmem
          rw [Multiset.coe_count, h0]
          exact Nat.zero_le _
        · have hc := Multiset.le_iff_count.mp hsub a
          have hcons : ((slot :: rest : List String) : Multiset String)
              = slot ::ₘ (rest : Multiset String) := rfl
          rw [hcons, Multiset.count_cons_of_ne ha] at hc
          exact hc
      exact le_trans (ih used P hnd hbound hsub' hallow)
        (skip_le_bestLineup_cons points elig slot rest used)

theorem round2_mono {x y : ℚ} (h : x ≤ y) : round2 x ≤ round2 y := by
  unfold round2
  have hr : round (x * 100) ≤ round (y * 100) := by
    rw [round_eq, round_eq]
    exact Int.floor_le_floor (by linarith)
  exact div_le_div_of_nonneg_right (by exact_mod_cast hr) (by norm_num)

/-- The three-identical-slot roster: three players all started in the single
`RB` slot of the expanded slot list. -/
def tripleRBRoster : List Player :=
  [⟨"A", 1, "RB", "RB", ["RB"]⟩, ⟨"B", 1, "RB", "RB", ["RB"]⟩,
   ⟨"C", 1, "RB", "RB", ["RB"]⟩]

/-- C3 counterexample: with three starters sharing the slot label `RB` and an
expanded slot list holding `RB` only once, every started player's slot label
occurs in the slot list and is allowed there by `_slot_allows`, yet the
solver output (1.0) is strictly below the actual starting total (3.0)
computed by `sum_points_for_slots`. -/
theorem optimal_lt_actual_counterexample :
    ((starters tripleRBRoster).all fun p =>
      decide (p.slot_position ∈ (["RB"] : List String)) &&
        slot_allows p.slot_position p.eligible_slots) = true
    ∧ optimal_lineup_score tripleRBRoster ["RB"] < actual_points tripleRBRoster := by
  with_unfolding_all decide

/-- C3 (amended): if the multiset of the starters' slot labels embeds into
the expanded slot list (counting multiplicity) and every starter is allowed
in its own slot by `_slot_allows`, then the actual starting total computed by
`sum_points_for_slots` is at most the exact search value, and its rounding is
at most the `_optimal_lineup_score` output. -/
theorem actual_le_optimal (players : List Player) (slots : List String)
    (hsub : (((starters players).map Player.slot_position) : Multiset String) ≤
      (slots : Multiset String))
    (hallow : ∀ p ∈ starters players,
      slot_allows p.slot_position p.eligible_slots = true) :
    actual_points players ≤
      bestLineup (players.map Player.points) (players.map Player.eligible_slots)
        slots []
    ∧ round2 (actual_points players) ≤ optimal_lineup_score players slots := by
  have key : actual_points players ≤
      bestLineup (players.map Player.points) (players.map Player.eligible_slots)
        slots [] := by
    set q : Player → Bool :=
      fun p => decide (pyUpper p.slot_position ∈ (starterLabels players).map pyUpper)
      with hq
    set P : List ℕ :=
      (List.range players.length).filter (fun i => q (players.getD i default))
      with hP
    have hfie : (P.map fun i => players.getD i default) = players.filter q :=
      filter_index_eq default q players
    have hstart : starters players = players.filter q := rfl
    have hmemP : ∀ i ∈ P, i < players.length := by
      intro i hi
      exact List.mem_range.mp (List.mem_of_mem_filter hi)
    have hmemStart : ∀ i ∈ P, players.getD i default ∈ starters players := by
      intro i hi
      rw [hstart, ← hfie]
      exact List.mem_map_of_mem _ hi
    have h1 := sum_slotted_le_bestLineup (players.map Player.points)
      (players.map Player.eligible_slots) (players.map Player.slot_position)
      slots [] P
      ((List.nodup_range _).filter _)
      (fun i hi => ⟨by rw [List.length_map]; exact hmemP i hi, by simp⟩)
      (by
        have hmap : (P.map fun i => (players.map Player.slot_position).getD i "")
            = (starters players).map Player.slot_position := by
          rw [hstart, ← hfie, List.map_map]
          refine List.map_congr_left ?_
          intro i hi
          exact getD_map_of_lt Player.slot_position (hmemP i hi) default ""
        rw [hmap]
        exact hsub)
      (fun i hi => by
        rw [getD_map_of_lt Player.slot_position (hmemP i hi) default "",
          getD_map_of_lt Player.eligible_slots (hmemP i hi) default []]
        exact hallow _ (hmemStart i hi))
    have h2 : (P.map fun i => (players.map Player.points).getD i 0).sum
        = actual_points players := by
      rw [actual_points_eq_sum_starters, hstart, ← hfie, List.map_map]
      refine congrArg List.sum (List.map_congr_left ?_)
      intro i hi
      exact getD_map_of_lt Player.points (hmemP i hi) default 0
    rw [← h2]
    exact h1
  refine ⟨key, ?_⟩
  unfold optimal_lineup_score
  by_cases hr : players.isEmpty
  · have hpl : players = [] := List.isEmpty_iff.mp hr
    subst hpl
    have : actual_points [] = 0 := by
      rw [actual_points_eq_sum_starters]
      rfl
    simp [this, round2_zero]
  · by_cases hs : slots.isEmpty
    · have hsl : slots = [] := List.isEmpty_iff.mp hs
      subst hsl
      have h0 : (starters players).map Player.slot_position = [] :=
        (Multiset.coe_eq_zero _).mp (Multiset.le_zero.mp (by simpa using hsub))
      have : actual_points players = 0 := by
        rw [actual_points_eq_sum_starters, List.map_eq_nil_iff.mp h0]
        rfl
      simp [hr, this, round2_zero]
    · simp only [hr, hs, Bool.or_self, Bool.false_eq_true, if_neg, not_false_iff]
      exact round2_mono key

/-- Witness for the amended C3 theorem at a concrete lineup. -/
theorem actual_le_optimal_witness :
    round2 (actual_points
        [⟨"A", 10, "QB", "QB", ["QB"]⟩, ⟨"B", 8, "RB", "RB", ["RB"]⟩,
         ⟨"C", 50, "BE", "WR", ["WR"]⟩])
      ≤ optimal_lineup_score
        [⟨"A", 10, "QB", "QB", ["QB"]⟩, ⟨"B", 8, "RB", "RB", ["RB"]⟩,
         ⟨"C", 50, "BE", "WR", ["WR"]⟩] ["QB", "RB"] :=
  (actual_le_optimal
    [⟨"A", 10, "QB", "QB", ["QB"]⟩, ⟨"B", 8, "RB", "RB", ["RB"]⟩,
     ⟨"C", 50, "BE", "WR", ["WR"]⟩] ["QB", "RB"]
    (by
      rw [show (starters
          [⟨"A", 10, "QB", "QB", ["QB"]⟩, ⟨"B", 8, "RB", "RB", ["RB"]⟩,
           ⟨"C", 50, "BE", "WR", ["WR"]⟩]).map Player.slot_position
          = ["QB", "RB"] from by with_unfolding_all decide])
    (by with_unfolding_all decide)).2

/-! ## `app/espn_lineup.py` — the greedy lineup used by `fetch_week_scores`

`espn_client.fetch_week_scores` populates `TeamWeekScore.optimal_points` from
`compute_optimal_with_assignment(players, *build_slot_plan_from_lineup(players))`.
Python's `id(player)` keys are modelled by the player's index in the list.
-/

/-- Python `text.replace(" ", "")`. -/
def pyRemoveSpaces (s : String) : String :=
  String.mk (s.data.filter (fun c => c ≠ ' '))

/-- `espn_lineup._pos(value)` on a string argument (the only way the embedded
call sites invoke it): strip, upper-case, drop spaces, collapse the
defense/special-teams aliases to `DST`. -/
def posOf (value : String) : String :=
  let text := pyUpper (pyStrip value)
  if text = "" then ""
  else
    let text := pyRemoveSpaces text
    if text ∈ (["D/ST", "DST", "D", "DEF", "DST/DEF"] : List String) then "DST"
    else if pyContains text "DST" || pyContains text "DEF" then "DST"
    else text

/-- The position used by the greedy candidate filters:
`_pos(getattr(player, "position", None) or getattr(player, "slot_position", ""))`. -/
def playerPos (p : Player) : String :=
  posOf (if p.position ≠ "" then p.position else p.slot_position)

/-- `fixed[slot] = fixed.get(slot, 0) + 1` on an insertion-ordered dict. -/
def bumpCount : List (String × ℕ) → String → List (String × ℕ)
  | [], k => [(k, 1)]
  | (k', c) :: rest, k =>
    if k' = k then (k', c + 1) :: rest else (k', c) :: bumpCount rest k

/-- `espn_lineup.build_slot_plan_from_lineup(players)`: fixed-slot counts and
flex eligibility sets (as lists; the Python sets are only used for
membership). -/
def build_slot_plan_from_lineup (players : List Player) :
    List (String × ℕ) × List (List String) :=
  players.foldl (fun acc player =>
    let slot := posOf player.slot_position
    if slot = "" then acc
    else if slot ∈ STARTER_EXCLUDES then acc
    else if slot = "RB/WR/TE" then (acc.1, acc.2 ++ [["RB", "WR", "TE"]])
    else if slot = "OP" then (acc.1, acc.2 ++ [["QB", "RB", "WR", "TE"]])
    else (bumpCount acc.1 slot, acc.2)) ([], [])

/-- `espn_lineup._best_by_position`: unused players whose `playerPos` equals
`position`, sorted by points descending (Python's stable `list.sort` with
`reverse=True`; `insertionSort` with `b.2 ≤ a.2` is the same stable
descending order). -/
def best_by_position (players : List Player) (position : String)
    (used_ids : List ℕ) : List (ℕ × ℚ) :=
  List.insertionSort (fun a b : ℕ × ℚ => b.2 ≤ a.2)
    ((List.range players.length).filterMap (fun i =>
      if i ∈ used_ids then none
      else if playerPos (players.getD i default) = position then
        some (i, (players.getD i default).points)
      else none))

/-- `espn_lineup._eligible_candidates`: unused players whose `playerPos` lies
in the normalized allowed set, sorted by points descending. -/
def eligible_candidates (players : List Player) (allowed : List String)
    (used_ids : List ℕ) : List (ℕ × ℚ) :=
  List.insertionSort (fun a b : ℕ × ℚ => b.2 ≤ a.2)
    ((List.range players.length).filterMap (fun i =>
      if i ∈ used_ids then none
      else if playerPos (players.getD i default) ∈ allowed.map posOf then
        some (i, (players.getD i default).points)
      else none))

/-- Python `"/".join(l)`. -/
def pyJoinSlash : List String → String
  | [] => ""
  | [s] => s
  | s :: rest => s ++ "/" ++ pyJoinSlash rest

/-- Python `sorted(strings)` (lexicographic by code point; stable). -/
def sortStrings (l : List String) : List String :=
  List.insertionSort (fun a b : String => a ≤ b) l

/-- Mutable greedy state of `compute_optimal_with_assignment`. -/
structure GreedyState where
  used_ids : List ℕ
  total : ℚ
  assignment : List (String × String × ℚ)

/-- The inner `for player, points in candidates[:count]` loop of the fixed
pass (the `candidates` argument is already truncated to `count`). -/
def takeFixed (players : List Player) (position : String) :
    List (ℕ × ℚ) → GreedyState → GreedyState
  | [], st => st
  | (i, pts) :: rest, st =>
    if i ∈ st.used_ids then takeFixed players position rest st
    else takeFixed players position rest
      ⟨i :: st.used_ids, st.total + pts,
        st.assignment ++ [(position, (players.getD i default).name, pts)]⟩

/-- `espn_lineup.compute_optimal_with_assignment(players, fixed, flex)`:
fixed slots first (top `count` by points per position), then each flex slot
greedily takes the best remaining eligible player. -/
def compute_optimal_with_assignment (players : List Player)
    (fixed : List (String × ℕ)) (flex : List (List String)) :
    ℚ × List (String × String × ℚ) :=
  let st1 : GreedyState := fixed.foldl (fun st pc =>
    takeFixed players pc.1 ((best_by_position players pc.1 st.used_ids).take pc.2) st)
    ⟨[], 0, []⟩
  let st2 : GreedyState := flex.foldl (fun st allowed =>
    match eligible_candidates players allowed st.used_ids with
    | [] => st
    | (i, pts) :: _ =>
      if i ∈ st.used_ids then st
      else ⟨i :: st.used_ids, st.total + pts,
        st.assignment ++
          [(pyJoinSlash (sortStrings allowed), (players.getD i default).name, pts)]⟩)
    st1
  (st2.total, st2.assignment)

/-- The expanded slot list equivalent to a `(fixed, flex)` plan: every fixed
position repeated by its count, then one slash-joined label per flex set
(the same label `compute_optimal_with_assignment` itself reports for flex
assignments). -/
def expand_plan (fixed : List (String × ℕ)) (flex : List (List String)) :
    List String :=
  (fixed.foldr (fun pc acc => List.replicate pc.2 pc.1 ++ acc) []) ++
    flex.map (fun allowed => pyJoinSlash (sortStrings allowed))

/-- A two-player superflex lineup: the manager starts a 5-point quarterback
at `OP` and a 10-point running back at the `RB/WR/TE` flex. -/
def superflexRoster : List Player :=
  [⟨"P1", 5, "OP", "QB", ["QB"]⟩, ⟨"P2", 10, "RB/WR/TE", "RB", ["RB"]⟩]

/-- C2: the greedy `compute_optimal_with_assignment` is **not** the exact
optimum.  On `superflexRoster` the slot plan is two flex slots
(`OP` first, then `RB/WR/TE`); greedy hands the running back to the superflex
slot and then finds nothing for the flex slot (total 10.0), while the exact
memoized search over the equivalent expanded slot list seats the quarterback
at superflex and the running back at flex (total 15.0). -/
theorem greedy_not_exact_counterexample :
    (compute_optimal_with_assignment superflexRoster
      (build_slot_plan_from_lineup superflexRoster).1
      (build_slot_plan_from_lineup superflexRoster).2).1 = 10
    ∧ optimal_lineup_score superflexRoster
        (expand_plan (build_slot_plan_from_lineup superflexRoster).1
          (build_slot_plan_from_lineup superflexRoster).2) = 15
    ∧ (10 : ℚ) ≠ 15 := by
  with_unfolding_all decide

/-! ## `app/survivor.py` — deterministic tie-break resolution -/

theorem foldl_min_le {α : Type} [LinearOrder α] (l : List α) (init : α) :
    l.foldl min init ≤ init := by
  induction l generalizing init with
  | nil => exact le_refl _
  | cons x xs ih => exact le_trans (ih _) (min_le_left _ _)

theorem foldl_min_le_mem {α : Type} [LinearOrder α] {l : List α} {x : α}
    (h : x ∈ l) (init : α) : l.foldl min init ≤ x := by
  induction l generalizing init with
  | nil => cases h
  | cons y ys ih =>
    rcases List.mem_cons.mp h with rfl | h'
    · exact le_trans (foldl_min_le ys _) (min_le_right init x)
    · exact ih h' _

theorem foldl_min_choice {α : Type} [LinearOrder α] (l : List α) (init : α) :
    l.foldl min init = init ∨ l.foldl min init ∈ l := by
  induction l generalizing init with
  | nil => exact Or.inl rfl
  | cons y ys ih =>
    rcases ih (min init y) with h | h
    · rcases min_choice init y with h' | h'
      · exact Or.inl (by rw [List.foldl_cons, h, h'])
      · exact Or.inr (by rw [List.foldl_cons, h, h']; exact List.mem_cons_self y ys)
    · exact Or.inr (List.mem_cons_of_mem _ (by rw [List.foldl_cons]; exact h))

/-- First-occurrence deduplication with an explicit seen accumulator: the key
order of a Python dict comprehension over a list with duplicates. -/
def firstDedup {α : Type} [DecidableEq α] : List α → List α → List α
  | [], _ => []
  | a :: l, seen =>
    if a ∈ seen then firstDedup l seen else a :: firstDedup l (a :: seen)

theorem firstDedup_mem_iff {α : Type} [DecidableEq α] :
    ∀ (l seen : List α) (x : α), x ∈ firstDedup l seen ↔ x ∈ l ∧ x ∉ seen := by
  intro l
  induction l with
  | nil => intro seen x; simp [firstDedup]
  | cons a l ih =>
    intro seen x
    by_cases ha : a ∈ seen
    · rw [firstDedup, if_pos ha, ih]
      constructor
      · exact fun ⟨h1, h2⟩ => ⟨List.mem_cons_of_mem _ h1, h2⟩
      · rintro ⟨h1, h2⟩
        rcases List.mem_cons.mp h1 with rfl | h1'
        · exact absurd ha h2
        · exact ⟨h1', h2⟩
    · rw [firstDedup, if_neg ha]
      constructor
      · intro hx
        rcases List.mem_cons.mp hx with rfl | hx'
        · exact ⟨List.mem_cons_self _ _, ha⟩
        · obtain ⟨h1, h2⟩ := (ih _ x).mp hx'
          exact ⟨List.mem_cons_of_mem _ h1,
            fun hs => h2 (List.mem_cons_of_mem _ hs)⟩
      · rintro ⟨h1, h2⟩
        by_cases hxa : x = a
        · exact hxa ▸ List.mem_cons_self _ _
        · rcases List.mem_cons.mp h1 with rfl | h1'
          · exact absurd rfl hxa
          · exact List.mem_cons_of_mem _ ((ih _ x).mpr
              ⟨h1', by simp [List.mem_cons, hxa, h2]⟩)

theorem headD_mem {α : Type} {l : List α} (h : l ≠ []) (d : α) : l.headD d ∈ l := by
  cases l with
  | nil => exact absurd rfl h
  | cons x xs => exact List.mem_cons_self _ _

/-- `espn_client.label_for(team_id, labels)`; `labels` is a dict from team id
to display label, modelled as a partial map. -/
def label_for (team_id : ℤ) (labels : ℤ → Option String) : String :=
  match labels team_id with
  | some s => if s ≠ "" then s else "Team " ++ toString team_id
  | none => "Team " ++ toString team_id

/-- The two cumulative tie-break metric dicts handed to `_resolve_tiebreak`
(`cumulative["season_efficiency"]` and `cumulative["total_points"]`, both
keyed by every team; `.get(team, 0.0)` makes them total maps). -/
structure Cumulative where
  season_efficiency : ℤ → ℚ
  total_points : ℤ → ℚ

/-- One entry of the `ordering` list built by `_resolve_tiebreak`: a numeric
metric with its direction, or the alphabetical owner-label metric (always
ascending). -/
inductive TbEntry where
  | num (asc : Bool) (f : ℤ → ℚ)
  | alpha (f : ℤ → String)

/-- The `ordering` list: recognized rules of `tiebreaks`, in order (the
alphabetical metric dict is `{team: owner_map.get(team, "")}`, i.e. the
owner-map as a total function). -/
def ruleEntries (tiebreaks : List String) (owner_map : ℤ → String)
    (cumulative : Cumulative) : List TbEntry :=
  tiebreaks.filterMap (fun rule =>
    if rule = "lower_season_eff" then some (TbEntry.num true cumulative.season_efficiency)
    else if rule = "higher_season_eff" then some (TbEntry.num false cumulative.season_efficiency)
    else if rule = "lower_total_points" then some (TbEntry.num true cumulative.total_points)
    else if rule = "higher_total_points" then some (TbEntry.num false cumulative.total_points)
    else if rule = "alphabetical" then some (TbEntry.alpha owner_map)
    else none)

/-- One pass of the rule loop: build the `values` dict over `remaining`
(first-occurrence key order), take the extreme value, keep the candidates
achieving it. -/
def applyRule (e : TbEntry) (remaining : List ℤ) : List ℤ :=
  match e, firstDedup remaining [] with
  | _, [] => []
  | .num asc f, x :: xs =>
    let best := if asc then (xs.map f).foldl min (f x) else (xs.map f).foldl max (f x)
    (x :: xs).filter (fun t => f t == best)
  | .alpha f, x :: xs =>
    let best := (xs.map f).foldl min (f x)
    (x :: xs).filter (fun t => f t == best)

/-- The rule loop of `_resolve_tiebreak` (Python returns `remaining[0]` as
soon as one candidate remains; returning the singleton list and letting the
caller take its head is the same value, since the final alphabetical sort of
a singleton is itself). -/
def tbLoop : List TbEntry → List ℤ → List ℤ
  | [], remaining => remaining
  | e :: rest, remaining =>
    let r' := applyRule e remaining
    if r'.length = 1 then r' else tbLoop rest r'

/-- `survivor._resolve_tiebreak(candidates, tiebreaks, owner_map, cumulative)`.
The final fallback is Python's `sorted(remaining, key=owner)[0]`. -/
def resolve_tiebreak (candidates : List ℤ) (tiebreaks : List String)
    (owner_map : ℤ → String) (cumulative : Cumulative) : ℤ :=
  if candidates.length = 1 then candidates.headD 0
  else
    let ordering := ruleEntries tiebreaks owner_map cumulative
    let ordering := if ordering.isEmpty then [TbEntry.alpha owner_map] else ordering
    let remaining := tbLoop ordering candidates
    (List.insertionSort (fun a b => owner_map a ≤ owner_map b) remaining).headD 0

theorem applyRule_subset (e : TbEntry) (remaining : List ℤ) :
    ∀ x ∈ applyRule e remaining, x ∈ remaining := by
  intro x hx
  unfold applyRule at hx
  rcases hd : firstDedup remaining [] with _ | ⟨y, ys⟩ <;> rw [hd] at hx
  · cases e <;> cases hx
  · have hsub : ∀ z ∈ y :: ys, z ∈ remaining := by
      intro z hz
      have := (firstDedup_mem_iff remaining [] z).mp (hd ▸ hz)
      exact this.1
    cases e <;> exact hsub _ (List.mem_of_mem_filter hx)

theorem exists_attains_foldl_min {α : Type} [LinearOrder α] (f : ℤ → α)
    (y : ℤ) (ys : List ℤ) :
    ∃ t ∈ y :: ys, f t = (ys.map f).foldl min (f y) := by
  rcases foldl_min_choice (ys.map f) (f y) with h | h
  · exact ⟨y, List.mem_cons_self _ _, h.symm⟩
  · obtain ⟨z, hz, hfz⟩ := List.mem_map.mp h
    exact ⟨z, List.mem_cons_of_mem _ hz, hfz⟩

theorem exists_attains_foldl_max {α : Type} [LinearOrder α] (f : ℤ → α)
    (y : ℤ) (ys : List ℤ) :
    ∃ t ∈ y :: ys, f t = (ys.map f).foldl max (f y) := by
  rcases foldl_max_choice (ys.map f) (f y) with h | h
  · exact ⟨y, List.mem_cons_self _ _, h.symm⟩
  · obtain ⟨z, hz, hfz⟩ := List.mem_map.mp h
    exact ⟨z, List.mem_cons_of_mem _ hz, hfz⟩

theorem applyRule_ne_nil (e : TbEntry) (remaining : List ℤ)
    (h : remaining ≠ []) : applyRule e remaining ≠ [] := by
  have hdne : firstDedup remaining [] ≠ [] := by
    cases remaining with
    | nil => exact absurd rfl h
    | cons a l =>
      rw [firstDedup, if_neg (List.not_mem_nil a)]
      exact List.cons_ne_nil _ _
  rcases hd : firstDedup remaining [] with _ | ⟨y, ys⟩
  · exact absurd hd hdne
  · cases e with
    | num asc f =>
      cases asc with
      | true =>
        obtain ⟨t, ht, hft⟩ := exists_attains_foldl_min f y ys
        refine List.ne_nil_of_mem (a := t) ?_
        show t ∈ applyRule (TbEntry.num true f) remaining
        unfold applyRule
        rw [hd]
        exact List.mem_filter.mpr ⟨ht, by simp [hft]⟩
      | false =>
        obtain ⟨t, ht, hft⟩ := exists_attains_foldl_max f y ys
        refine List.ne_nil_of_mem (a := t) ?_
        show t ∈ applyRule (TbEntry.num false f) remaining
        unfold applyRule
        rw [hd]
        exact List.mem_filter.mpr ⟨ht, by simp [hft]⟩
    | alpha f =>
      obtain ⟨t, ht, hft⟩ := exists_attains_foldl_min f y ys
      refine List.ne_nil_of_mem (a := t) ?_
      show t ∈ applyRule (TbEntry.alpha f) remaining
      unfold applyRule
      rw [hd]
      exact List.mem_filter.mpr ⟨ht, by simp [hft]⟩

theorem tbLoop_spec :
    ∀ (entries : List TbEntry) (remaining : List ℤ), remaining ≠ [] →
      tbLoop entries remaining ≠ [] ∧ ∀ x ∈ tbLoop entries remaining, x ∈ remaining := by
  intro entries
  induction entries with
  | nil => exact fun remaining h => ⟨h, fun x hx => hx⟩
  | cons e rest ih =>
    intro remaining h
    rw [tbLoop]
    by_cases h1 : (applyRule e remaining).length = 1
    · rw [if_pos h1]
      exact ⟨applyRule_ne_nil e remaining h, applyRule_subset e remaining⟩
    · rw [if_neg h1]
      obtain ⟨hne, hsub⟩ := ih (applyRule e remaining) (applyRule_ne_nil e remaining h)
      exact ⟨hne, fun x hx => applyRule_subset e remaining x (hsub x hx)⟩

theorem tbLoop_single (e : TbEntry) (remaining : List ℤ) :
    tbLoop [e] remaining = applyRule e remaining := by
  rw [tbLoop]
  by_cases h : (applyRule e remaining).length = 1
  · rw [if_pos h]
  · rw [if_neg h]
    rfl

/-- Helper: `_resolve_tiebreak` always returns one of its candidates. -/
theorem resolve_tiebreak_mem (candidates : List ℤ) (h : candidates ≠ [])
    (tiebreaks : List String) (owner_map : ℤ → String) (cumulative : Cumulative) :
    resolve_tiebreak candidates tiebreaks owner_map cumulative ∈ candidates := by
  unfold resolve_tiebreak
  by_cases h1 : candidates.length = 1
  · rw [if_pos h1]
    exact headD_mem h 0
  · rw [if_neg h1]
    obtain ⟨hne, hsub⟩ := tbLoop_spec
      (if (ruleEntries tiebreaks owner_map cumulative).isEmpty then
        [TbEntry.alpha owner_map]
      else ruleEntries tiebreaks owner_map cumulative) candidates h
    have hperm := List.perm_insertionSort
      (fun a b => owner_map a ≤ owner_map b)
      (tbLoop (if (ruleEntries tiebreaks owner_map cumulative).isEmpty then
          [TbEntry.alpha owner_map]
        else ruleEntries tiebreaks owner_map cumulative) candidates)
    have hsne : List.insertionSort (fun a b => owner_map a ≤ owner_map b)
        (tbLoop (if (ruleEntries tiebreaks owner_map cumulative).isEmpty then
            [TbEntry.alpha owner_map]
          else ruleEntries tiebreaks owner_map cumulative) candidates) ≠ [] := by
      intro e
      exact hne ((e ▸ hperm).symm.eq_nil)
    exact hsub _ (hperm.mem_iff.mp (headD_mem hsne 0))

theorem applyRule_alpha_min (f : ℤ → String) (remaining : List ℤ) (x : ℤ)
    (hx : x ∈ applyRule (TbEntry.alpha f) remaining) :
    ∀ c ∈ remaining, f x ≤ f c := by
  rcases hd : firstDedup remaining [] with _ | ⟨y, ys⟩
  · unfold applyRule at hx
    rw [hd] at hx
    cases hx
  · unfold applyRule at hx
    rw [hd] at hx
    have hfx : f x = (ys.map f).foldl min (f y) := by
      have := (List.mem_filter.mp hx).2
      simpa using this
    intro c hc
    have hcd : c ∈ y :: ys := by
      rw [← hd]
      exact (firstDedup_mem_iff remaining [] c).mpr ⟨hc, List.not_mem_nil c⟩
    rcases List.mem_cons.mp hcd with rfl | hcs
    · rw [hfx]
      exact foldl_min_le _ _
    · rw [hfx]
      exact foldl_min_le_mem (List.mem_map_of_mem f hcs) _

/-- The head of a stable sort by an ascending key attains the minimum key of
the list (Python's `sorted(l, key=f)[0]`). -/
theorem insertionSort_head_min_key {α β : Type} [LinearOrder β] (f : α → β) :
    ∀ (l : List α) (top : α) (rest : List α),
      List.insertionSort (fun a b => f a ≤ f b) l = top :: rest →
      ∀ y ∈ l, f top ≤ f y := by
  intro l
  induction l with
  | nil => intro top rest h; cases h
  | cons x xs ih =>
    intro top rest h y hy
    rcases hs : List.insertionSort (fun a b => f a ≤ f b) xs with _ | ⟨h0, t0⟩
    · have hxs : xs = [] := ((hs ▸ List.perm_insertionSort _ xs)).symm.eq_nil
      subst hxs
      simp only [List.insertionSort, List.orderedInsert] at h
      injection h with h1 _
      subst h1
      rcases List.mem_singleton.mp hy with rfl
      exact le_refl _
    · have hmin := ih h0 t0 hs
      rw [List.insertionSort, hs, List.orderedInsert] at h
      by_cases hr : f x ≤ f h0
      · rw [if_pos hr] at h
        injection h with h1 _
        subst h1
        rcases List.mem_cons.mp hy with rfl | hy'
        · exact le_refl _
        · exact le_trans hr (hmin y hy')
      · rw [if_neg hr] at h
        injection h with h1 _
        subst h1
        rcases List.mem_cons.mp hy with rfl | hy'
        · exact le_of_not_le hr
        · exact hmin y hy'

/-- C8: for every nonempty candidate list, `_resolve_tiebreak` returns an
element of the candidate list (it is total, so it cannot raise); each applied
rule keeps a nonempty subset of the candidates it is given; and (with more
than one candidate, so that the rule loop runs) the result lies in the set of
candidates still remaining after the configured rule chain — in particular,
when the chain is exhausted without isolating one team — and its display
label is alphabetically least among those remaining candidates (the
`sorted(remaining, key=owner)[0]` fallback). -/
theorem resolve_tiebreak_total (candidates : List ℤ) (h : candidates ≠ [])
    (tiebreaks : List String) (owner_map : ℤ → String) (cumulative : Cumulative) :
    resolve_tiebreak candidates tiebreaks owner_map cumulative ∈ candidates
    ∧ (∀ (e : TbEntry) (remaining : List ℤ), remaining ≠ [] →
        applyRule e remaining ≠ [] ∧ ∀ x ∈ applyRule e remaining, x ∈ remaining)
    ∧ (candidates.length ≠ 1 →
        resolve_tiebreak candidates tiebreaks owner_map cumulative
          ∈ tbLoop (if (ruleEntries tiebreaks owner_map cumulative).isEmpty then
              [TbEntry.alpha owner_map]
            else ruleEntries tiebreaks owner_map cumulative) candidates
        ∧ ∀ c ∈ tbLoop (if (ruleEntries tiebreaks owner_map cumulative).isEmpty then
              [TbEntry.alpha owner_map]
            else ruleEntries tiebreaks owner_map cumulative) candidates,
          owner_map (resolve_tiebreak candidates tiebreaks owner_map cumulative)
            ≤ owner_map c) := by
  refine ⟨resolve_tiebreak_mem candidates h tiebreaks owner_map cumulative,
    fun e remaining hne =>
      ⟨applyRule_ne_nil e remaining hne, applyRule_subset e remaining⟩,
    ?_⟩
  intro h1
  obtain ⟨hne, _⟩ := tbLoop_spec
    (if (ruleEntries tiebreaks owner_map cumulative).isEmpty then
      [TbEntry.alpha owner_map]
    else ruleEntries tiebreaks owner_map cumulative) candidates h
  have hres : resolve_tiebreak candidates tiebreaks owner_map cumulative
      = (List.insertionSort (fun a b => owner_map a ≤ owner_map b)
        (tbLoop (if (ruleEntries tiebreaks owner_map cumulative).isEmpty then
            [TbEntry.alpha owner_map]
          else ruleEntries tiebreaks owner_map cumulative) candidates)).headD 0 := by
    unfold resolve_tiebreak
    rw [if_neg h1]
  have hperm := List.perm_insertionSort (fun a b => owner_map a ≤ owner_map b)
    (tbLoop (if (ruleEntries tiebreaks owner_map cumulative).isEmpty then
        [TbEntry.alpha owner_map]
      else ruleEntries tiebreaks owner_map cumulative) candidates)
  have hsne : List.insertionSort (fun a b => owner_map a ≤ owner_map b)
      (tbLoop (if (ruleEntries tiebreaks owner_map cumulative).isEmpty then
          [TbEntry.alpha owner_map]
        else ruleEntries tiebreaks owner_map cumulative) candidates) ≠ [] :=
    fun e => hne ((e ▸ hperm).symm.eq_nil)
  rcases hs : List.insertionSort (fun a b => owner_map a ≤ owner_map b)
      (tbLoop (if (ruleEntries tiebreaks owner_map cumulative).isEmpty then
          [TbEntry.alpha owner_map]
        else ruleEntries tiebreaks owner_map cumulative) candidates)
    with _ | ⟨top, rest⟩
  · exact absurd hs hsne
  · have htop : resolve_tiebreak candidates tiebreaks owner_map cumulative = top := by
      rw [hres, hs]
      rfl
    constructor
    · rw [htop]
      refine hperm.mem_iff.mp ?_
      rw [hs]
      exact List.mem_cons_self top rest
    · intro c hc
      rw [htop]
      exact insertionSort_head_min_key owner_map _ top rest hs c hc

/-- Witness for the C8 theorem: two candidates and a configured chain
(`lower_total_points`) whose only rule leaves both candidates tied, so the
chain is exhausted; the result is a candidate, and it is team 1, whose label
"A" is alphabetically first. -/
theorem resolve_tiebreak_total_witness :
    resolve_tiebreak [2, 1] ["lower_total_points"]
      (fun t => if t = 1 then "A" else "B") ⟨fun _ => 0, fun _ => 0⟩ ∈
      ([2, 1] : List ℤ)
    ∧ resolve_tiebreak [2, 1] ["lower_total_points"]
      (fun t => if t = 1 then "A" else "B") ⟨fun _ => 0, fun _ => 0⟩ = 1 :=
  ⟨(resolve_tiebreak_total [2, 1] (by simp) ["lower_total_points"]
      (fun t => if t = 1 then "A" else "B") ⟨fun _ => 0, fun _ => 0⟩).1,
    by with_unfolding_all decide⟩

/-! ## `app/survivor.py` — the elimination state machine

The per-team-week table (`df`) is a list of rows; the survivor machine reads
the columns below.  `efficiency` / `optimal_points` model
`row.get("efficiency", 0.0)` / `row.get("optimal_points", row["points"])`:
`none` stands for a missing column entry, handled by the recorded defaults.
Week dicts (`{int(row["team_id"]): ... for _, row in rows.iterrows()}`) are
modelled by last-occurrence lookup, since later rows overwrite earlier keys.
The formatted `summary` lines are presentation-only (float string formatting)
and are not part of the embedding. -/

structure Row where
  team_id : ℤ
  owner : String
  week : ℤ
  points : ℚ
  bench_points : Option ℚ
  efficiency : Option ℚ
  optimal_points : Option ℚ

structure ElimEvent where
  week : ℤ
  team_id : ℤ
  owner : String
  points : ℚ

structure SurvState where
  alive : List ℤ
  eliminations : List (ℤ × ℤ × ℚ)
  eliminated : List ElimEvent
  cp : ℤ → ℚ
  ce : ℤ → List ℚ

structure SurvivorResult where
  eliminations : List (ℤ × ℤ × ℚ)
  eliminated_order : List ElimEvent
  alive : List ℤ

/-- Python `sorted({int(x) for x in l})`. -/
def sortedUnique (l : List ℤ) : List ℤ :=
  List.insertionSort (fun a b : ℤ => a ≤ b) (firstDedup l [])

/-- Python `range(lo, hi + 1)` on ints. -/
def intRange (lo hi : ℤ) : List ℤ :=
  (List.range (hi + 1 - lo).toNat).map (fun k : ℕ => lo + (k : ℤ))

/-- Python `min(l)` on a nonempty list (0 on the empty list, never reached). -/
def minInt : List ℤ → ℤ
  | [] => 0
  | x :: xs => xs.foldl min x

/-- Python `max(l)` on a nonempty list (0 on the empty list, never reached). -/
def maxInt : List ℤ → ℤ
  | [] => 0
  | x :: xs => xs.foldl max x

/-- The week dict lookup: the last row of the week with the given team id. -/
def weekRowFor (week_rows : List Row) (t : ℤ) : Option Row :=
  week_rows.reverse.find? (fun r => r.team_id == t)

/-- The `for team in teams` cumulative bookkeeping loop of `run_survivor`
(updates `cumulative_points` and `cumulative_eff` for every team, every
processed week; note `week_opt.get(team, 0.0) or 0.0` is the identity on
floats, so it is dropped). -/
def updateCums (week_rows : List Row) (teams : List ℤ) (cp : ℤ → ℚ)
    (ce : ℤ → List ℚ) : (ℤ → ℚ) × (ℤ → List ℚ) :=
  teams.foldl (fun acc team =>
    let score := ((weekRowFor week_rows team).map Row.points).getD 0
    let eff := ((weekRowFor week_rows team).map (fun r => r.efficiency.getD 0)).getD 0
    let opt := ((weekRowFor week_rows team).map
      (fun r => r.optimal_points.getD r.points)).getD 0
    let cp' := fun t => if t = team then acc.1 team + score else acc.1 t
    let ce' :=
      if 0 < opt then
        (fun t => if t = team then acc.2 team ++ [score / opt] else acc.2 t)
      else if eff ≠ 0 then
        (fun t => if t = team then acc.2 team ++ [eff] else acc.2 t)
      else acc.2
    (cp', ce')) (cp, ce)

/-- `alive_scores.get(t, 0.0)`: this week's score of a team, 0.0 when the
team has no row. -/
def aliveScores (week_rows : List Row) (t : ℤ) : ℚ :=
  ((weekRowFor week_rows t).map Row.points).getD 0

/-- `min_score = min(alive_scores.values())` (0 on an empty pool, never
reached: elimination only runs with at least two alive teams). -/
def minScore (week_rows : List Row) (alive : List ℤ) : ℚ :=
  match alive with
  | [] => 0
  | a :: rest => (rest.map (aliveScores week_rows)).foldl min (aliveScores week_rows a)

/-- `low_teams`: the alive teams tied at the week minimum (`alive` never
holds duplicates, so the dict comprehension is a plain filter). -/
def lowTeams (week_rows : List Row) (alive : List ℤ) : List ℤ :=
  alive.filter (fun t => aliveScores week_rows t == minScore week_rows alive)

/-- `cumulative_metrics["season_efficiency"]`: mean of the recorded weekly
efficiency samples, 0.0 with no samples. -/
def seasonEffOf (ce : ℤ → List ℚ) (team : ℤ) : ℚ :=
  if (ce team).isEmpty then 0 else (ce team).sum / ((ce team).length : ℚ)

/-- The `loser = _resolve_tiebreak(low_teams, tiebreaks, owner_map,
cumulative_metrics)` call (`owner_map.get` reduces to `label_for` because
every looked-up team is one of its keys). -/
def survivorLoser (week_rows : List Row) (labels : ℤ → Option String)
    (tiebreaks : List String) (st : SurvState) : ℤ :=
  resolve_tiebreak (lowTeams week_rows st.alive) tiebreaks
    (fun t => label_for t labels) ⟨seasonEffOf st.ce, st.cp⟩

/-- The elimination part of one loop iteration of `run_survivor` (everything
after the cumulative bookkeeping): skip when before the start week, when at
most one team is alive, or when no alive team has a score this week (the
Python `LOGGER.warning` anomaly path); otherwise eliminate the tie-break
loser among the minimum scorers. -/
def survivorElimPhase (week_rows : List Row) (labels : ℤ → Option String)
    (start_week : ℤ) (tiebreaks : List String) (st : SurvState) (week : ℤ) :
    SurvState :=
  if week < start_week ∨ st.alive.length ≤ 1 then st
  else if st.alive.any (fun t => week_rows.any (fun r => r.team_id == t)) = false then
    st
  else
    let loser := survivorLoser week_rows labels tiebreaks st
    let elim_pts := if st.alive.any (fun t => t == loser) then
        aliveScores week_rows loser
      else 0
    { st with
      alive := st.alive.erase loser,
      eliminations := st.eliminations ++ [(week, loser, elim_pts)],
      eliminated := st.eliminated ++
        [⟨week, loser, label_for loser labels, elim_pts⟩] }

/-- One iteration of the `for week in range(first_week, last_week + 1)` loop
of `run_survivor` (after the `week in weeks_set` guard): cumulative
bookkeeping for every team, then the elimination phase. -/
def survivorWeekStep (df : List Row) (labels : ℤ → Option String)
    (teams : List ℤ) (start_week : ℤ) (tiebreaks : List String)
    (st : SurvState) (week : ℤ) : SurvState :=
  let week_rows := df.filter (fun r => r.week == week)
  let cums := updateCums week_rows teams st.cp st.ce
  survivorElimPhase week_rows labels start_week tiebreaks
    { st with cp := cums.1, ce := cums.2 } week

/-- The scoped week list: `sorted({int(w) for w in weeks_scope})` when the
scope argument is truthy, else the distinct weeks of the table. -/
def scopedWeeks (df : List Row) : Option (List ℤ) → List ℤ
  | some ws => if ws.isEmpty then sortedUnique (df.map Row.week) else sortedUnique ws
  | none => sortedUnique (df.map Row.week)

/-- `teams = sorted({int(t) for t in df["team_id"]})`. -/
def survivorTeams (df : List Row) : List ℤ :=
  sortedUnique (df.map Row.team_id)

/-- The initial machine state: everyone alive, empty histories. -/
def survivorInit (df : List Row) : SurvState :=
  ⟨survivorTeams df, [], [], fun _ => 0, fun _ => []⟩

/-- The loop body including the `if week not in weeks_set: continue` guard. -/
def survivorGuardedStep (df : List Row) (labels : ℤ → Option String)
    (teams : List ℤ) (start_week : ℤ) (tiebreaks : List String)
    (weeks : List ℤ) (st : SurvState) (week : ℤ) : SurvState :=
  if week ∈ weeks then survivorWeekStep df labels teams start_week tiebreaks st week
  else st

/-- `survivor.run_survivor(df, start_week=.., tiebreaks=.., weeks_scope=..,
last_completed_week=.., labels=..)`. -/
def run_survivor (df : List Row) (start_week : ℤ) (tiebreaks : List String)
    (weeks_scope : Option (List ℤ)) (last_completed_week : Option ℤ)
    (labels : ℤ → Option String) : SurvivorResult :=
  let weeks := scopedWeeks df weeks_scope
  let teams := survivorTeams df
  if weeks.isEmpty then ⟨[], [], teams⟩
  else
    let first_week := minInt weeks
    let last_week := last_completed_week.getD (maxInt weeks)
    if last_week < first_week then ⟨[], [], teams⟩
    else
      let stF := (intRange first_week last_week).foldl
        (survivorGuardedStep df labels teams start_week tiebreaks weeks)
        (survivorInit df)
      ⟨stF.eliminations, stF.eliminated, stF.alive⟩

theorem lowTeams_ne_nil (week_rows : List Row) (alive : List ℤ)
    (h : alive ≠ []) : lowTeams week_rows alive ≠ [] := by
  cases alive with
  | nil => exact absurd rfl h
  | cons a rest =>
    obtain ⟨t, ht, hft⟩ := exists_attains_foldl_min (aliveScores week_rows) a rest
    refine List.ne_nil_of_mem (a := t) ?_
    exact List.mem_filter.mpr ⟨ht, by simp [minScore, hft]⟩

theorem survivorLoser_mem (week_rows : List Row) (labels : ℤ → Option String)
    (tiebreaks : List String) (st : SurvState) (h : st.alive ≠ []) :
    survivorLoser week_rows labels tiebreaks st ∈ st.alive :=
  List.mem_of_mem_filter
    (resolve_tiebreak_mem (lowTeams week_rows st.alive)
      (lowTeams_ne_nil week_rows st.alive h) tiebreaks
      (fun t => label_for t labels) ⟨seasonEffOf st.ce, st.cp⟩)

theorem elimPhase_cases (week_rows : List Row) (labels : ℤ → Option String)
    (start_week : ℤ) (tiebreaks : List String) (st : SurvState) (week : ℤ) :
    ((survivorElimPhase week_rows labels start_week tiebreaks st week).alive
        = st.alive
      ∧ (survivorElimPhase week_rows labels start_week tiebreaks st week).eliminated
        = st.eliminated) ∨
    (∃ loser ∈ st.alive, ∃ ow pts,
      (survivorElimPhase week_rows labels start_week tiebreaks st week).alive
        = st.alive.erase loser
      ∧ (survivorElimPhase week_rows labels start_week tiebreaks st week).eliminated
        = st.eliminated ++ [⟨week, loser, ow, pts⟩]) := by
  unfold survivorElimPhase
  by_cases h1 : week < start_week ∨ st.alive.length ≤ 1
  · rw [if_pos h1]
    exact Or.inl ⟨rfl, rfl⟩
  · rw [if_neg h1]
    by_cases h2 : st.alive.any
        (fun t => week_rows.any (fun r => r.team_id == t)) = false
    · rw [if_pos h2]
      exact Or.inl ⟨rfl, rfl⟩
    · rw [if_neg h2]
      have hne : st.alive ≠ [] := by
        intro he
        exact h1 (Or.inr (by rw [he]; exact Nat.zero_le 1))
      exact Or.inr ⟨survivorLoser week_rows labels tiebreaks st,
        survivorLoser_mem week_rows labels tiebreaks st hne, _, _, rfl, rfl⟩

theorem weekStep_cases (df : List Row) (labels : ℤ → Option String)
    (teams : List ℤ) (start_week : ℤ) (tiebreaks : List String)
    (st : SurvState) (week : ℤ) :
    ((survivorWeekStep df labels teams start_week tiebreaks st week).alive
        = st.alive
      ∧ (survivorWeekStep df labels teams start_week tiebreaks st week).eliminated
        = st.eliminated) ∨
    (∃ loser ∈ st.alive, ∃ ow pts,
      (survivorWeekStep df labels teams start_week tiebreaks st week).alive
        = st.alive.erase loser
      ∧ (survivorWeekStep df labels teams start_week tiebreaks st week).eliminated
        = st.eliminated ++ [⟨week, loser, ow, pts⟩]) :=
  elimPhase_cases (df.filter (fun r => r.week == week)) labels start_week tiebreaks
    { st with
      cp := (updateCums (df.filter (fun r => r.week == week)) teams st.cp st.ce).1,
      ce := (updateCums (df.filter (fun r => r.week == week)) teams st.cp st.ce).2 }
    week

theorem survivor_fold_invariant (df : List Row) (labels : ℤ → Option String)
    (teams : List ℤ) (start_week : ℤ) (tiebreaks : List String)
    (weeks : List ℤ) :
    ∀ (ws : List ℤ) (st : SurvState),
      List.Pairwise (· < ·) ws →
      List.Perm (st.alive ++ st.eliminated.map ElimEvent.team_id) teams →
      List.Pairwise (· < ·) (st.eliminated.map ElimEvent.week) →
      (∀ e ∈ st.eliminated, ∀ w ∈ ws, e.week < w) →
      List.Perm
        ((ws.foldl (survivorGuardedStep df labels teams start_week tiebreaks weeks)
            st).alive
          ++ ((ws.foldl (survivorGuardedStep df labels teams start_week tiebreaks weeks)
            st).eliminated.map ElimEvent.team_id)) teams
      ∧ List.Pairwise (· < ·)
          ((ws.foldl (survivorGuardedStep df labels teams start_week tiebreaks weeks)
            st).eliminated.map ElimEvent.week) := by
  intro ws
  induction ws with
  | nil => exact fun st _ hperm hpw _ => ⟨hperm, hpw⟩
  | cons w ws' ih =>
    intro st hws hperm hpw hbound
    rw [List.foldl_cons]
    have hstep :
        ((survivorGuardedStep df labels teams start_week tiebreaks weeks st w).alive
            = st.alive
          ∧ (survivorGuardedStep df labels teams start_week tiebreaks weeks st w).eliminated
            = st.eliminated) ∨
        (∃ loser ∈ st.alive, ∃ ow pts,
          (survivorGuardedStep df labels teams start_week tiebreaks weeks st w).alive
            = st.alive.erase loser
          ∧ (survivorGuardedStep df labels teams start_week tiebreaks weeks st w).eliminated
            = st.eliminated ++ [⟨w, loser, ow, pts⟩]) := by
      unfold survivorGuardedStep
      by_cases hw : w ∈ weeks
      · rw [if_pos hw]
        exact weekStep_cases df labels teams start_week tiebreaks st w
      · rw [if_neg hw]
        exact Or.inl ⟨rfl, rfl⟩
    set st1 := survivorGuardedStep df labels teams start_week tiebreaks weeks st w
      with hst1
    rcases hstep with ⟨ha, he⟩ | ⟨loser, hl, ow, pts, ha, he⟩
    · exact ih st1 hws.of_cons (by rw [ha, he]; exact hperm) (by rw [he]; exact hpw)
        (fun e hee w' hw' => by
          rw [he] at hee
          exact hbound e hee w' (List.mem_cons_of_mem _ hw'))
    · refine ih st1 hws.of_cons ?_ ?_ ?_
      · rw [ha, he, List.map_append]
        show List.Perm
          (st.alive.erase loser ++ (st.eliminated.map ElimEvent.team_id ++ [loser]))
          teams
        rw [← List.append_assoc]
        have p1 := List.perm_append_singleton loser
          (st.alive.erase loser ++ st.eliminated.map ElimEvent.team_id)
        have p2 : List.Perm (loser :: st.alive.erase loser) st.alive :=
          (List.perm_cons_erase hl).symm
        have p3 := p2.append_right (st.eliminated.map ElimEvent.team_id)
        exact p1.trans (p3.trans hperm)
      · rw [he, List.map_append]
        rw [List.pairwise_append]
        refine ⟨hpw, List.pairwise_singleton _ _, ?_⟩
        intro x hx y hy
        obtain ⟨e, hee, hex⟩ := List.mem_map.mp hx
        have hyw : y = w := List.mem_singleton.mp hy
        rw [hyw, ← hex]
        exact hbound e hee w (List.mem_cons_self _ _)
      · intro e hee w' hw'
        rw [he] at hee
        rcases List.mem_append.mp hee with hee' | hee'
        · exact hbound e hee' w' (List.mem_cons_of_mem _ hw')
        · rcases List.mem_singleton.mp hee' with rfl
          exact (List.pairwise_cons.mp hws).1 w' hw'

theorem intRange_pairwise (lo hi : ℤ) :
    List.Pairwise (· < ·) (intRange lo hi) := by
  unfold intRange
  refine List.Pairwise.map (fun k : ℕ => lo + (k : ℤ)) (fun a b hab => ?_)
    (List.pairwise_lt_range _)
  show lo + (a : ℤ) < lo + (b : ℤ)
  omega

set_option maxHeartbeats 800000 in
/-- C10: `run_survivor` partitions the input teams — the final `alive` list
together with the teams of `eliminated_order` is a permutation of the
distinct input team ids (so every input team lands in exactly one of the two
and nobody is eliminated twice), and the weeks of `eliminated_order` are
strictly increasing (so at most one elimination happens per processed
week). -/
theorem run_survivor_partitions (df : List Row) (start_week : ℤ)
    (tiebreaks : List String) (weeks_scope : Option (List ℤ))
    (last_completed_week : Option ℤ) (labels : ℤ → Option String) :
    List.Perm
      ((run_survivor df start_week tiebreaks weeks_scope last_completed_week
          labels).alive
        ++ ((run_survivor df start_week tiebreaks weeks_scope last_completed_week
          labels).eliminated_order.map ElimEvent.team_id))
      (survivorTeams df)
    ∧ List.Pairwise (· < ·)
        ((run_survivor df start_week tiebreaks weeks_scope last_completed_week
          labels).eliminated_order.map ElimEvent.week) := by
  unfold run_survivor
  by_cases h1 : (scopedWeeks df weeks_scope).isEmpty
  · simp only [h1, if_pos]
    exact ⟨by simp, List.Pairwise.nil⟩
  · simp only [h1, Bool.false_eq_true, if_neg, not_false_iff]
    by_cases h2 : (last_completed_week.getD (maxInt (scopedWeeks df weeks_scope)))
        < minInt (scopedWeeks df weeks_scope)
    · rw [if_pos h2]
      exact ⟨by simp, List.Pairwise.nil⟩
    · rw [if_neg h2]
      have hinv := survivor_fold_invariant df labels (survivorTeams df) start_week
        tiebreaks (scopedWeeks df weeks_scope)
        (intRange (minInt (scopedWeeks df weeks_scope))
          (last_completed_week.getD (maxInt (scopedWeeks df weeks_scope))))
        (survivorInit df)
        (intRange_pairwise _ _)
        (by simp [survivorInit])
        (by simp [survivorInit])
        (by simp [survivorInit])
      exact hinv

theorem minInt_le_mem {l : List ℤ} {x : ℤ} (h : x ∈ l) : minInt l ≤ x := by
  cases l with
  | nil => cases h
  | cons a xs =>
    rcases List.mem_cons.mp h with rfl | h'
    · exact foldl_min_le _ _
    · exact foldl_min_le_mem h' _

theorem intRange_concat (lo hi : ℤ) (h : lo ≤ hi) :
    intRange lo hi = intRange lo (hi - 1) ++ [hi] := by
  unfold intRange
  have h1 : (hi + 1 - lo).toNat = (hi - 1 + 1 - lo).toNat + 1 := by omega
  rw [h1, List.range_succ, List.map_append]
  congr 1
  show [lo + (((hi - 1 + 1 - lo).toNat : ℕ) : ℤ)] = [hi]
  congr 1
  omega

theorem elimPhase_eliminates (week_rows : List Row) (labels : ℤ → Option String)
    (start_week : ℤ) (tiebreaks : List String) (st : SurvState) (week : ℤ)
    (h1 : ¬ week < start_week) (h2 : 1 < st.alive.length)
    (h3 : st.alive.any (fun t => week_rows.any (fun r => r.team_id == t)) = true) :
    ∃ ev : ElimEvent, ev.week = week ∧
      (survivorElimPhase week_rows labels start_week tiebreaks st week).eliminated
        = st.eliminated ++ [ev] := by
  unfold survivorElimPhase
  rw [if_neg (by rw [not_or]; exact ⟨h1, by omega⟩)]
  rw [if_neg (by simp [h3])]
  exact ⟨_, rfl, rfl⟩

theorem weekStep_eliminates (df : List Row) (labels : ℤ → Option String)
    (teams : List ℤ) (start_week : ℤ) (tiebreaks : List String)
    (st : SurvState) (week : ℤ)
    (h1 : ¬ week < start_week) (h2 : 1 < st.alive.length)
    (h3 : st.alive.any (fun t => (df.filter (fun r => r.week == week)).any
      (fun r => r.team_id == t)) = true) :
    ∃ ev : ElimEvent, ev.week = week ∧
      (survivorWeekStep df labels teams start_week tiebreaks st week).eliminated
        = st.eliminated ++ [ev] :=
  elimPhase_eliminates (df.filter (fun r => r.week == week)) labels start_week
    tiebreaks
    { st with
      cp := (updateCums (df.filter (fun r => r.week == week)) teams st.cp st.ce).1,
      ce := (updateCums (df.filter (fun r => r.week == week)) teams st.cp st.ce).2 }
    week h1 h2 h3

set_option maxHeartbeats 800000 in
/-- C4 (amended): survivor processing is inclusive of the final completed
week.  With `start_week = 3` and `last_completed_week = 8`, whenever 8 is a
scoped week, more than one team is alive entering week 8 (after folding the
machine over the scoped weeks before 8), and at least one of those alive
teams has a week-8 row in the table, an elimination event for week 8 appears
in `eliminated_order`. -/
theorem survivor_inclusive_final_week (df : List Row) (tiebreaks : List String)
    (weeks_scope : Option (List ℤ)) (labels : ℤ → Option String)
    (h8 : (8 : ℤ) ∈ scopedWeeks df weeks_scope)
    (halive : 1 < ((intRange (minInt (scopedWeeks df weeks_scope)) 7).foldl
      (survivorGuardedStep df labels (survivorTeams df) 3 tiebreaks
        (scopedWeeks df weeks_scope)) (survivorInit df)).alive.length)
    (hscore : ((intRange (minInt (scopedWeeks df weeks_scope)) 7).foldl
      (survivorGuardedStep df labels (survivorTeams df) 3 tiebreaks
        (scopedWeeks df weeks_scope)) (survivorInit df)).alive.any
        (fun t => (df.filter (fun r => r.week == (8 : ℤ))).any
          (fun r => r.team_id == t)) = true) :
    ∃ e ∈ (run_survivor df 3 tiebreaks weeks_scope (some 8) labels).eliminated_order,
      e.week = 8 := by
  have hwne : ¬ (scopedWeeks df weeks_scope).isEmpty = true := fun he =>
    List.ne_nil_of_mem h8 (List.isEmpty_iff.mp he)
  have hfirst : minInt (scopedWeeks df weeks_scope) ≤ 8 := minInt_le_mem h8
  unfold run_survivor
  rw [if_neg hwne]
  rw [if_neg (show ¬ (Option.getD (some 8) (maxInt (scopedWeeks df weeks_scope)) <
    minInt (scopedWeeks df weeks_scope)) from by
    rw [Option.getD_some]
    omega)]
  have hrange : intRange (minInt (scopedWeeks df weeks_scope))
      (Option.getD (some (8 : ℤ)) (maxInt (scopedWeeks df weeks_scope)))
      = intRange (minInt (scopedWeeks df weeks_scope)) 7 ++ [8] := by
    rw [Option.getD_some, intRange_concat _ _ hfirst]
    norm_num
  rw [hrange, List.foldl_append, List.foldl_cons, List.foldl_nil]
  have hg : ∀ st, survivorGuardedStep df labels (survivorTeams df) 3 tiebreaks
      (scopedWeeks df weeks_scope) st 8
      = survivorWeekStep df labels (survivorTeams df) 3 tiebreaks st 8 := by
    intro st
    unfold survivorGuardedStep
    rw [if_pos h8]
  rw [hg]
  obtain ⟨ev, hw, he⟩ := weekStep_eliminates df labels (survivorTeams df) 3 tiebreaks
    _ 8 (by norm_num) halive hscore
  show ∃ e ∈ (survivorWeekStep df labels (survivorTeams df) 3 tiebreaks
      ((intRange (minInt (scopedWeeks df weeks_scope)) 7).foldl
        (survivorGuardedStep df labels (survivorTeams df) 3 tiebreaks
          (scopedWeeks df weeks_scope)) (survivorInit df)) 8).eliminated,
    e.week = 8
  rw [he]
  exact ⟨ev, List.mem_append_right _ (List.mem_singleton.mpr rfl), hw⟩

/-- Witness for the amended C4 theorem: two teams whose only rows are in
week 8 — the week-8 elimination event appears. -/
theorem survivor_inclusive_final_week_witness :
    ∃ e ∈ (run_survivor
      [⟨1, "", 8, 10, none, none, none⟩, ⟨2, "", 8, 5, none, none, none⟩]
      3 [] none (some 8) (fun _ => some "X")).eliminated_order, e.week = 8 :=
  survivor_inclusive_final_week
    [⟨1, "", 8, 10, none, none, none⟩, ⟨2, "", 8, 5, none, none, none⟩]
    [] none (fun _ => some "X")
    (by with_unfolding_all decide)
    (by with_unfolding_all decide)
    (by with_unfolding_all decide)

/-- The C4 counterexample table: teams 1, 2, 3 play week 3 (team 3 is
eliminated there); the only week-8 row belongs to the already-eliminated
team 3. -/
def deadTeamWeek8df : List Row :=
  [⟨1, "", 3, 10, none, none, none⟩, ⟨2, "", 3, 8, none, none, none⟩,
   ⟨3, "", 3, 1, none, none, none⟩, ⟨3, "", 8, 7, none, none, none⟩]

set_option maxRecDepth 4000 in
/-- C4 counterexample: with `start_week = 3`, `last_completed_week = 8`, more
than one team alive entering week 8, and week-8 scores present in the scoped
input (for a dead team only), `run_survivor` records **no** week-8
elimination event: the skip-when-no-alive-scores guard fires. -/
theorem survivor_week8_counterexample :
    1 < ((intRange (minInt (scopedWeeks deadTeamWeek8df none)) 7).foldl
      (survivorGuardedStep deadTeamWeek8df (fun _ => some "X")
        (survivorTeams deadTeamWeek8df) 3 [] (scopedWeeks deadTeamWeek8df none))
      (survivorInit deadTeamWeek8df)).alive.length
    ∧ (deadTeamWeek8df.filter (fun r => r.week == (8 : ℤ))).isEmpty = false
    ∧ (run_survivor deadTeamWeek8df 3 [] none (some 8)
        (fun _ => some "X")).eliminated_order.all (fun e => e.week != 8) = true := by
  with_unfolding_all decide

theorem elimPhase_skips (week_rows : List Row) (labels : ℤ → Option String)
    (start_week : ℤ) (tiebreaks : List String) (st : SurvState) (week : ℤ)
    (h : st.alive.any (fun t => week_rows.any (fun r => r.team_id == t)) = false) :
    survivorElimPhase week_rows labels start_week tiebreaks st week = st := by
  unfold survivorElimPhase
  by_cases h1 : week < start_week ∨ st.alive.length ≤ 1
  · rw [if_pos h1]
  · rw [if_neg h1, if_pos h]

/-- C5 (amended): during a processed week, when **no** alive team has a score
row for that week, the week's step changes neither `alive` nor the
elimination histories — elimination is skipped and, the embedding being
total, nothing is raised.  (When at least one alive team does have a score,
alive teams without rows are treated as scoring 0.0 and can be eliminated on
missing data — see the counterexample.) -/
theorem survivor_skips_week_without_alive_scores (df : List Row)
    (labels : ℤ → Option String) (teams : List ℤ) (start_week : ℤ)
    (tiebreaks : List String) (st : SurvState) (week : ℤ)
    (h : st.alive.any (fun t => (df.filter (fun r => r.week == week)).any
      (fun r => r.team_id == t)) = false) :
    (survivorWeekStep df labels teams start_week tiebreaks st week).alive = st.alive
    ∧ (survivorWeekStep df labels teams start_week tiebreaks st week).eliminated
      = st.eliminated
    ∧ (survivorWeekStep df labels teams start_week tiebreaks st week).eliminations
      = st.eliminations := by
  have heq : survivorWeekStep df labels teams start_week tiebreaks st week
      = { st with
        cp := (updateCums (df.filter (fun r => r.week == week)) teams st.cp st.ce).1,
        ce := (updateCums (df.filter (fun r => r.week == week)) teams st.cp st.ce).2 } :=
    elimPhase_skips (df.filter (fun r => r.week == week)) labels
      start_week tiebreaks
      { st with
        cp := (updateCums (df.filter (fun r => r.week == week)) teams st.cp st.ce).1,
        ce := (updateCums (df.filter (fun r => r.week == week)) teams st.cp st.ce).2 }
      week h
  exact ⟨by rw [heq], by rw [heq], by rw [heq]⟩

/-- Witness for the amended C5 theorem: a week with no rows at all for the
alive teams is skipped. -/
theorem survivor_skips_week_without_alive_scores_witness :
    (survivorWeekStep [⟨1, "", 2, 5, none, none, none⟩] (fun _ => some "X")
      [1, 2] 3 [] ⟨[1, 2], [], [], fun _ => 0, fun _ => []⟩ 3).alive = [1, 2] :=
  (survivor_skips_week_without_alive_scores [⟨1, "", 2, 5, none, none, none⟩]
    (fun _ => some "X") [1, 2] 3 [] ⟨[1, 2], [], [], fun _ => 0, fun _ => []⟩ 3
    (by with_unfolding_all decide)).1

/-- The C5 counterexample table: both teams play week 2; only team 1 has a
week-3 row. -/
def missingDataDf : List Row :=
  [⟨1, "", 2, 50, none, none, none⟩, ⟨2, "", 2, 60, none, none, none⟩,
   ⟨1, "", 3, 10, none, none, none⟩]

set_option maxRecDepth 4000 in
/-- C5 counterexample: team 2 has no week-3 row while team 1 does; far from
skipping the week, `run_survivor` treats the missing score as 0.0 and
eliminates team 2 in week 3. -/
theorem missing_data_eliminates_counterexample :
    ((run_survivor missingDataDf 3 [] none none (fun _ => some "X")).eliminated_order.map
      (fun e => (e.week, e.team_id))) = [(3, 2)]
    ∧ (missingDataDf.filter (fun r => r.week == (3 : ℤ))).all
        (fun r => r.team_id != 2) = true := by
  with_unfolding_all decide

/-! ## `app/pir.py` — the Price-Is-Right ranker

`compute_pir` works on the scoped table, re-derives `owner` via `label_for`,
fills missing `bench_points` with 0.0, adds `delta = target - points`, keeps
the rows with `delta >= 0` and stable-sorts them by `delta` ascending, then
`points` descending, then the recognized configured tie-break columns
(pandas `sort_values(kind="mergesort")`; `insertionSort` with the
ties-keep-original-order relation is the same stable multi-key sort). -/

structure PirEntry where
  team_id : ℤ
  owner : String
  week : ℤ
  points : ℚ
  bench_points : ℚ
  delta : ℚ

structure PirLeader where
  team_id : ℤ
  owner : String
  week : ℤ
  points : ℚ
  delta : ℚ

structure PirResult where
  leader : Option PirLeader
  leaderboard_df : List PirEntry

/-- One sort key: a column projection and its direction. -/
inductive PirKey where
  | q (f : PirEntry → ℚ) (asc : Bool)
  | z (f : PirEntry → ℤ) (asc : Bool)
  | s (f : PirEntry → String) (asc : Bool)

/-- Strictly-before on one key. -/
def keyLTb : PirKey → PirEntry → PirEntry → Bool
  | .q f asc, a, b => if asc then decide (f a < f b) else decide (f b < f a)
  | .z f asc, a, b => if asc then decide (f a < f b) else decide (f b < f a)
  | .s f asc, a, b => if asc then decide (f a < f b) else decide (f b < f a)

/-- Tied on one key. -/
def keyEQb : PirKey → PirEntry → PirEntry → Bool
  | .q f _, a, b => decide (f a = f b)
  | .z f _, a, b => decide (f a = f b)
  | .s f _, a, b => decide (f a = f b)

/-- Lexicographic ordering over the key list: `a` sorts not-after `b`. -/
def lexLEb : List PirKey → PirEntry → PirEntry → Bool
  | [], _, _ => true
  | k :: ks, a, b =>
    if keyLTb k a b then true
    else if keyEQb k a b then lexLEb ks a b
    else false

/-- The sort keys of `pir._apply_tiebreaks`: the base sort
`[("delta", asc), ("points", desc)]` followed by the recognized configured
rules. -/
def pirSortKeys (tiebreaks : List String) : List PirKey :=
  PirKey.q PirEntry.delta true :: PirKey.q PirEntry.points false ::
    tiebreaks.filterMap (fun rule =>
      if rule = "earliest_week" then some (PirKey.z PirEntry.week true)
      else if rule = "latest_week" then some (PirKey.z PirEntry.week false)
      else if rule = "higher_bench" then some (PirKey.q PirEntry.bench_points false)
      else if rule = "alphabetical" then some (PirKey.s PirEntry.owner true)
      else none)

/-- `pir._apply_tiebreaks(df, tiebreaks, base_sort)`: the stable multi-key
sort. -/
def apply_tiebreaks (df : List PirEntry) (tiebreaks : List String) :
    List PirEntry :=
  List.insertionSort
    (fun a b => lexLEb (pirSortKeys tiebreaks) a b = true) df

/-- The week-scope restriction `working[working["week"].isin(weeks_scope)]`
(applied only when the scope argument is truthy). -/
def pirScoped (df : List Row) : Option (List ℤ) → List Row
  | some ws => if ws.isEmpty then df else df.filter (fun r => decide (r.week ∈ ws))
  | none => df

/-- One working row of `compute_pir`: owner re-derived from the labels map,
`bench_points` filled with 0.0, `delta = target - points`. -/
def toPirEntry (labels : ℤ → Option String) (target : ℚ) (r : Row) : PirEntry :=
  ⟨r.team_id, label_for r.team_id labels, r.week, r.points,
    r.bench_points.getD 0, target - r.points⟩

/-- `pir.compute_pir(df, target=.., tiebreaks=.., weeks_scope=.., labels=..)`. -/
def compute_pir (df : List Row) (target : ℚ) (tiebreaks : List String)
    (weeks_scope : Option (List ℤ)) (labels : ℤ → Option String) : PirResult :=
  let working := (pirScoped df weeks_scope).map (toPirEntry labels target)
  let candidates := working.filter (fun e => decide (0 ≤ e.delta))
  let leaderboard := apply_tiebreaks candidates tiebreaks
  let leader : Option PirLeader := match leaderboard with
    | [] => none
    | top :: _ =>
      some ⟨top.team_id, label_for top.team_id labels, top.week, top.points, top.delta⟩
  ⟨leader, leaderboard⟩

theorem lexLEb_delta_le {ks : List PirKey} {a b : PirEntry}
    (h : lexLEb (PirKey.q PirEntry.delta true :: ks) a b = true) :
    a.delta ≤ b.delta := by
  rw [lexLEb] at h
  by_cases hlt : keyLTb (PirKey.q PirEntry.delta true) a b = true
  · have hd : a.delta < b.delta := by simpa [keyLTb] using hlt
    exact hd.le
  · rw [if_neg hlt] at h
    by_cases heq : keyEQb (PirKey.q PirEntry.delta true) a b = true
    · have hd : a.delta = b.delta := by simpa [keyEQb] using heq
      exact hd.le
    · rw [if_neg heq] at h
      cases h

theorem lexLEb_delta_ge_of_not {ks : List PirKey} {a b : PirEntry}
    (h : ¬ lexLEb (PirKey.q PirEntry.delta true :: ks) a b = true) :
    b.delta ≤ a.delta := by
  by_contra hc
  push_neg at hc
  exact h (by rw [lexLEb, if_pos (by simpa [keyLTb] using hc)])

theorem insertionSort_head_min_delta (ks : List PirKey) :
    ∀ (l : List PirEntry) (top : PirEntry) (rest : List PirEntry),
      List.insertionSort
        (fun a b => lexLEb (PirKey.q PirEntry.delta true :: ks) a b = true) l
        = top :: rest →
      ∀ y ∈ l, top.delta ≤ y.delta := by
  intro l
  induction l with
  | nil => intro top rest h; cases h
  | cons x xs ih =>
    intro top rest h y hy
    rcases hs : List.insertionSort
        (fun a b => lexLEb (PirKey.q PirEntry.delta true :: ks) a b = true) xs
      with _ | ⟨h0, t0⟩
    · have hxs : xs = [] := ((hs ▸ List.perm_insertionSort _ xs)).symm.eq_nil
      subst hxs
      simp only [List.insertionSort, List.orderedInsert] at h
      injection h with h1 _
      subst h1
      rcases List.mem_singleton.mp hy with rfl
      exact le_refl _
    · have hmin := ih h0 t0 hs
      rw [List.insertionSort, hs, List.orderedInsert] at h
      by_cases hr : lexLEb (PirKey.q PirEntry.delta true :: ks) x h0 = true
      · rw [if_pos hr] at h
        injection h with h1 _
        subst h1
        rcases List.mem_cons.mp hy with rfl | hy'
        · exact le_refl _
        · exact le_trans (lexLEb_delta_le hr) (hmin y hy')
      · rw [if_neg hr] at h
        injection h with h1 _
        subst h1
        rcases List.mem_cons.mp hy with rfl | hy'
        · exact lexLEb_delta_ge_of_not hr
        · exact hmin y hy'

/-- C6: the `compute_pir` leaderboard is a permutation of exactly the scoped
rows with `delta = target - points ≥ 0` (so a row whose points exceed the
target never appears); the leader is `null` precisely when the leaderboard is
empty; and any returned leader attains the minimum delta among the qualifying
rows. -/
theorem compute_pir_spec (df : List Row) (target : ℚ) (tiebreaks : List String)
    (weeks_scope : Option (List ℤ)) (labels : ℤ → Option String) :
    List.Perm (compute_pir df target tiebreaks weeks_scope labels).leaderboard_df
      (((pirScoped df weeks_scope).map (toPirEntry labels target)).filter
        (fun e => decide (0 ≤ e.delta)))
    ∧ (∀ e ∈ (compute_pir df target tiebreaks weeks_scope labels).leaderboard_df,
        e.delta = target - e.points ∧ 0 ≤ e.delta)
    ∧ ((compute_pir df target tiebreaks weeks_scope labels).leader = none ↔
        (compute_pir df target tiebreaks weeks_scope labels).leaderboard_df = [])
    ∧ (∀ L, (compute_pir df target tiebreaks weeks_scope labels).leader = some L →
        (∃ e ∈ (compute_pir df target tiebreaks weeks_scope labels).leaderboard_df,
          e.delta = L.delta)
        ∧ ∀ e ∈ (compute_pir df target tiebreaks weeks_scope labels).leaderboard_df,
          L.delta ≤ e.delta) := by
  have hlb : (compute_pir df target tiebreaks weeks_scope labels).leaderboard_df
      = apply_tiebreaks
        (((pirScoped df weeks_scope).map (toPirEntry labels target)).filter
          (fun e => decide (0 ≤ e.delta))) tiebreaks := rfl
  have hleader : (compute_pir df target tiebreaks weeks_scope labels).leader
      = (match apply_tiebreaks
          (((pirScoped df weeks_scope).map (toPirEntry labels target)).filter
            (fun e => decide (0 ≤ e.delta))) tiebreaks with
        | [] => none
        | top :: _ => some ⟨top.team_id, label_for top.team_id labels, top.week,
            top.points, top.delta⟩) := rfl
  have hperm : List.Perm
      (apply_tiebreaks
        (((pirScoped df weeks_scope).map (toPirEntry labels target)).filter
          (fun e => decide (0 ≤ e.delta))) tiebreaks)
      (((pirScoped df weeks_scope).map (toPirEntry labels target)).filter
        (fun e => decide (0 ≤ e.delta))) :=
    List.perm_insertionSort _ _
  refine ⟨by rw [hlb]; exact hperm, ?_, ?_, ?_⟩
  · intro e he
    rw [hlb] at he
    have hec := hperm.mem_iff.mp he
    have he0 : (0 : ℚ) ≤ e.delta := by
      have := (List.mem_filter.mp hec).2
      simpa using this
    obtain ⟨r, _, hre⟩ := List.mem_map.mp (List.mem_of_mem_filter hec)
    subst hre
    exact ⟨rfl, he0⟩
  · rw [hleader, hlb]
    rcases hc : apply_tiebreaks
        (((pirScoped df weeks_scope).map (toPirEntry labels target)).filter
          (fun e => decide (0 ≤ e.delta))) tiebreaks with _ | ⟨top, rest⟩
    · simp
    · simp
  · intro L hL
    rw [hleader] at hL
    rcases hc : apply_tiebreaks
        (((pirScoped df weeks_scope).map (toPirEntry labels target)).filter
          (fun e => decide (0 ≤ e.delta))) tiebreaks with _ | ⟨top, rest⟩
    · rw [hc] at hL
      cases hL
    · rw [hc] at hL
      have hLd : L.delta = top.delta := by
        cases hL
        rfl
      have hmind := insertionSort_head_min_delta
        (PirKey.q PirEntry.points false ::
          tiebreaks.filterMap (fun rule =>
            if rule = "earliest_week" then some (PirKey.z PirEntry.week true)
            else if rule = "latest_week" then some (PirKey.z PirEntry.week false)
            else if rule = "higher_bench" then some (PirKey.q PirEntry.bench_points false)
            else if rule = "alphabetical" then some (PirKey.s PirEntry.owner true)
            else none))
        (((pirScoped df weeks_scope).map (toPirEntry labels target)).filter
          (fun e => decide (0 ≤ e.delta))) top rest hc
      constructor
      · refine ⟨top, ?_, hLd.symm⟩
        rw [hlb, hc]
        exact List.mem_cons_self _ _
      · intro e he
        rw [hlb, hc] at he
        have hece : e ∈ (((pirScoped df weeks_scope).map (toPirEntry labels target)).filter
            (fun e => decide (0 ≤ e.delta))) := by
          rw [← hc] at he
          exact hperm.mem_iff.mp he
        rw [hLd]
        exact hmind e hece

/-! ## The efficiency aggregator (`update_efficiency`)

`app/main.py` imports `EffStat` and `update_efficiency` from
`app.efficiency`, but the copy of `app/efficiency.py` in the repository only
holds the season-leaderboard variant: the aggregator itself is missing from
the sources (only its callers and tests remain).  The definitions below are
therefore modelled from the spec. -/

/-- Modelled from the spec: `EffStat`, the per-team accumulator with running
`actual_sum`, running `optimal_sum` and a `weeks` count (`app.efficiency` is
missing from the sources). -/
structure EffStat where
  actual_sum : ℚ
  optimal_sum : ℚ
  weeks : ℕ

/-- The fields of `espn_client.TeamWeekScore` that the aggregator reads. -/
structure TeamWeekScore where
  team_id : ℤ
  week : ℤ
  points : ℚ
  optimal_points : ℚ

/-- Modelled from the spec: `update_efficiency(stats, week_records,
seen=seen_pairs)` (`app.efficiency` is missing from the sources).  For each
record in order: compute the key `(team_id, week)`; skip the record entirely
when the key is already in the seen set; otherwise add `points` to the
team's `actual_sum`, `optimal_points` to its `optimal_sum`, bump its week
counter, and mark the key seen.  The mutated stats dict and seen set are
returned as a pair. -/
def update_efficiency (stats : ℤ → EffStat) (records : List TeamWeekScore)
    (seen : Finset (ℤ × ℤ)) : (ℤ → EffStat) × Finset (ℤ × ℤ) :=
  records.foldl (fun acc r =>
    if (r.team_id, r.week) ∈ acc.2 then acc
    else
      (fun t => if t = r.team_id then
          ⟨(acc.1 t).actual_sum + r.points, (acc.1 t).optimal_sum + r.optimal_points,
            (acc.1 t).weeks + 1⟩
        else acc.1 t,
       insert (r.team_id, r.week) acc.2)) (stats, seen)

theorem update_efficiency_seen_subset (records : List TeamWeekScore) :
    ∀ (stats : ℤ → EffStat) (seen : Finset (ℤ × ℤ)),
      seen ⊆ (update_efficiency stats records seen).2 := by
  induction records with
  | nil => exact fun stats seen => Finset.Subset.refl seen
  | cons r rest ih =>
    intro stats seen
    rw [update_efficiency, List.foldl_cons]
    by_cases h : (r.team_id, r.week) ∈ seen
    · rw [if_pos h]
      exact ih stats seen
    · rw [if_neg h]
      exact fun x hx =>
        ih _ (insert (r.team_id, r.week) seen) (Finset.mem_insert_of_mem hx)

theorem update_efficiency_keys_seen (records : List TeamWeekScore) :
    ∀ (stats : ℤ → EffStat) (seen : Finset (ℤ × ℤ)), ∀ r ∈ records,
      (r.team_id, r.week) ∈ (update_efficiency stats records seen).2 := by
  induction records with
  | nil => exact fun stats seen r hr => absurd hr (List.not_mem_nil r)
  | cons r0 rest ih =>
    intro stats seen r hr
    rw [update_efficiency, List.foldl_cons]
    rcases List.mem_cons.mp hr with rfl | hr'
    · by_cases h : (r.team_id, r.week) ∈ seen
      · rw [if_pos h]
        exact update_efficiency_seen_subset rest stats seen h
      · rw [if_neg h]
        exact update_efficiency_seen_subset rest _ _
          (Finset.mem_insert_self _ _)
    · by_cases h : (r0.team_id, r0.week) ∈ seen
      · rw [if_pos h]
        exact ih stats seen r hr'
      · rw [if_neg h]
        exact ih _ _ r hr'

theorem update_efficiency_all_seen (records : List TeamWeekScore) :
    ∀ (stats : ℤ → EffStat) (seen : Finset (ℤ × ℤ)),
      (∀ r ∈ records, (r.team_id, r.week) ∈ seen) →
      update_efficiency stats records seen = (stats, seen) := by
  induction records with
  | nil => exact fun stats seen _ => rfl
  | cons r0 rest ih =>
    intro stats seen h
    rw [update_efficiency, List.foldl_cons,
      if_pos (h r0 (List.mem_cons_self _ _))]
    exact ih stats seen (fun r hr => h r (List.mem_cons_of_mem _ hr))

/-- C7: the efficiency-aggregator update is idempotent under the dedupe set —
a record whose `(team_id, week)` key is already seen is skipped entirely, and
re-applying the update with the same record batch on the once-updated
stats/seen pair changes nothing (same `actual_sum`, `optimal_sum` and week
count for every team, and the same seen set). -/
theorem update_efficiency_idempotent (stats : ℤ → EffStat)
    (records : List TeamWeekScore) (seen : Finset (ℤ × ℤ)) :
    update_efficiency (update_efficiency stats records seen).1 records
        (update_efficiency stats records seen).2
      = update_efficiency stats records seen
    ∧ (∀ (r : TeamWeekScore) (rest : List TeamWeekScore),
        (r.team_id, r.week) ∈ seen →
        update_efficiency stats (r :: rest) seen
          = update_efficiency stats rest seen) := by
  constructor
  · rw [update_efficiency_all_seen records _ _
      (fun r hr => update_efficiency_keys_seen records stats seen r hr)]
  · intro r rest h
    rw [update_efficiency, List.foldl_cons, if_pos h]
    rfl

/-- Witness for the C7 theorem: a duplicate `(team_id=2, week=1)` record in
the seen set is skipped. -/
theorem update_efficiency_idempotent_witness :
    update_efficiency (fun _ => ⟨0, 0, 0⟩) [⟨2, 1, 999, 999⟩]
        ({(2, 1)} : Finset (ℤ × ℤ))
      = update_efficiency (fun _ => ⟨0, 0, 0⟩) []
        ({(2, 1)} : Finset (ℤ × ℤ)) :=
  (update_efficiency_idempotent (fun _ => ⟨0, 0, 0⟩) [⟨2, 1, 999, 999⟩]
    ({(2, 1)} : Finset (ℤ × ℤ))).2 ⟨2, 1, 999, 999⟩ [] (by decide)

end Sidepots
